import Mathlib

/-!
Verification of the ASCII-table realignment and text-reflow engine of this
repository (`src/diagram-server/src/soccer_diagrams/table_fixer.py`).

Modelling conventions:
* a text line is a `List Char` (Python strings are sequences of code points);
* a document is a `List (List Char)` of newline-free lines — Python's
  `text.split("\n")` / `"\n".join(...)` is a bijection between such lists and
  texts, so the claims about `fix_table_alignment(text)` are stated on the
  line lists directly;
* Python `dict` records (fixes, warnings, wrap changes) become structures, and
  the f-string messages become inductive constructors carrying the same
  numeric payloads;
* file I/O is abstracted: the file-level wrappers are modelled as functions of
  the file's text content (their status logic is pure given the text).
-/

set_option linter.unusedVariables false
set_option linter.unnecessarySimpa false

namespace TableFixer

/-- The whitespace characters stripped by Python's `str.strip()` (ASCII part;
the box-drawing characters in play are never whitespace). -/
def isPySpace (c : Char) : Bool :=
  c == ' ' || c == '\t' || c == '\n' || c == '\r' || c == '\x0b' || c == '\x0c'

/-- Python `line.strip()`. -/
def pyStrip (l : List Char) : List Char :=
  ((l.dropWhile isPySpace).reverse.dropWhile isPySpace).reverse

/-- `BOX_VERTICAL = "│┃"` -/
def BOX_VERTICAL : List Char := ['│', '┃']

/-- `BOX_CORNERS_TOP = set("┌┐╭╮")` -/
def BOX_CORNERS_TOP : List Char := ['┌', '┐', '╭', '╮']

/-- `BOX_CORNERS_BOTTOM = set("└┘╯╰")` -/
def BOX_CORNERS_BOTTOM : List Char := ['└', '┘', '╯', '╰']

/-- `BOX_TEES_TOP = set("┬")` -/
def BOX_TEES_TOP : List Char := ['┬']

/-- `BOX_TEES_BOTTOM = set("┴")` -/
def BOX_TEES_BOTTOM : List Char := ['┴']

/-- `BOX_TEES_LEFT = set("├")` -/
def BOX_TEES_LEFT : List Char := ['├']

/-- `BOX_TEES_RIGHT = set("┤")` -/
def BOX_TEES_RIGHT : List Char := ['┤']

/-- `BOX_CROSS = set("┼")` -/
def BOX_CROSS : List Char := ['┼']

/-- `BOX_HORIZONTAL = set("─━┄┈╌")` -/
def BOX_HORIZONTAL : List Char := ['─', '━', '┄', '┈', '╌']

/-- `BOX_COL_SEPARATORS = BOX_TEES_TOP | BOX_TEES_BOTTOM | BOX_CROSS |
BOX_CORNERS_TOP | BOX_CORNERS_BOTTOM` — note the source does NOT include the
left/right tees `├` `┤` here. -/
def BOX_COL_SEPARATORS : List Char :=
  BOX_TEES_TOP ++ BOX_TEES_BOTTOM ++ BOX_CROSS ++ BOX_CORNERS_TOP ++ BOX_CORNERS_BOTTOM

/-- `_is_table_border_line`.  The Python threshold test is
`horizontal_count > len(stripped) * 0.4`; it is modelled by the exact rational
comparison `5 * horizontal_count > 2 * len(stripped)` (the float product
`len * 0.4` rounds to the same comparisons for all machine-representable
lengths in play). -/
def is_table_border_line (l : List Char) : Bool :=
  let s := pyStrip l
  match s.head? with
  | none => false
  | some c =>
    decide (c ∈ BOX_CORNERS_TOP ++ BOX_CORNERS_BOTTOM ++ BOX_TEES_LEFT) &&
    decide (5 * s.countP (fun ch => decide (ch ∈ BOX_HORIZONTAL)) > 2 * s.length)

/-- `_is_table_data_line`: after stripping, first and last characters are
vertical bars. -/
def is_table_data_line (l : List Char) : Bool :=
  match (pyStrip l).head?, (pyStrip l).getLast? with
  | some c, some d => decide (c ∈ BOX_VERTICAL) && decide (d ∈ BOX_VERTICAL)
  | _, _ => false

/-- The `for i, char in enumerate(line): if char in S: positions.append(i)`
loop shared by `_get_column_positions` and `_get_pipe_positions`, with the
running index made explicit. -/
def charPositionsAux (p : Char → Bool) : List Char → Nat → List Nat
  | [], _ => []
  | c :: cs, i =>
    if p c then i :: charPositionsAux p cs (i + 1) else charPositionsAux p cs (i + 1)

/-- `_get_column_positions`. -/
def get_column_positions (l : List Char) : List Nat :=
  charPositionsAux (fun c => decide (c ∈ BOX_COL_SEPARATORS)) l 0

/-- `_get_pipe_positions`. -/
def get_pipe_positions (l : List Char) : List Nat :=
  charPositionsAux (fun c => decide (c ∈ BOX_VERTICAL)) l 0

/-- Python slice `s[:i]` (negative `i` counts from the end, clamped). -/
def pySliceTo (s : List Char) (i : Int) : List Char :=
  s.take (if i < 0 then ((s.length : Int) + i).toNat else i.toNat)

/-- Python slice `s[i:]` (negative `i` counts from the end, clamped). -/
def pySliceFrom (s : List Char) (i : Int) : List Char :=
  s.drop (if i < 0 then ((s.length : Int) + i).toNat else i.toNat)

/-- Trailing-space run length of a character list. -/
def trailingSpaces (s : List Char) : Nat :=
  (s.reverse.takeWhile (fun c => decide (c = ' '))).length

/-- The backward scan of `_fix_data_row`:
`check_pos = actual_pos - 1; while check_pos >= 0 and line[check_pos] == ' '`.
For `0 < p ≤ len` it counts the spaces immediately before offset `p`. -/
def countSpacesBefore (s : List Char) (p : Int) : Nat :=
  if p ≤ 0 then 0 else trailingSpaces (s.take p.toNat)

/-- Exception-aware variant of `countSpacesBefore`: Python's
`result_line[check_pos]` raises `IndexError` when the first probed position
`p - 1` is at or beyond the end of the string (`none` models the exception;
all later probed positions are strictly smaller, hence in bounds). -/
def countSpacesBeforeChecked (s : List Char) (p : Int) : Option Nat :=
  if p ≤ 0 then some 0
  else if (s.length : Int) < p then none
  else some (countSpacesBefore s p)

/-- A fix description from `_fix_data_row`: `added col n` models
`f"col {col}: added {n} space(s)"`, `removed col n` models
`f"col {col}: removed {n} space(s)"`. -/
inductive Fix where
  | added (col n : Nat)
  | removed (col n : Nat)
deriving DecidableEq, Repr

/-- A warning description: `mismatch e g` models
`f"column count mismatch: expected {e}, got {g}"`, `tooLong col n` models
`f"col {col}: content {n} char(s) too long (manual fix needed)"`. -/
inductive Warn where
  | mismatch (expected got : Nat)
  | tooLong (col shortfall : Nat)
deriving DecidableEq, Repr

/-- Loop state of `_fix_data_row`: `result_line`, `cumulative_shift`, and the
accumulated `fixes` / `warnings`. -/
structure RowState where
  res : List Char
  cum : Int
  fixes : List Fix
  warns : List Warn
deriving DecidableEq, Repr

/-- One iteration of the `for i in range(len(expected_positions))` loop of
`_fix_data_row`; `i` is the 0-based column index, `e`/`a` the expected and
originally observed separator offsets of that column. -/
def rowStep (i : Nat) (e a : Nat) (st : RowState) : RowState :=
  let actual : Int := (a : Int) + st.cum
  let diff : Int := (e : Int) - actual
  if diff = 0 then st
  else if 0 < diff then
    { st with
      res := pySliceTo st.res actual ++ List.replicate diff.toNat ' ' ++ pySliceFrom st.res actual
      cum := st.cum + diff
      fixes := st.fixes ++ [Fix.added (i + 1) diff.toNat] }
  else
    let sb := countSpacesBefore st.res actual
    let rem := min (-diff).toNat sb
    if 0 < rem then
      { st with
        res := pySliceTo st.res (actual - (rem : Int)) ++ pySliceFrom st.res actual
        cum := st.cum - (rem : Int)
        fixes := st.fixes ++ [Fix.removed (i + 1) rem] }
    else if sb = 0 then
      { st with warns := st.warns ++ [Warn.tooLong (i + 1) ((-diff).toNat - rem)] }
    else st

/-- The column loop of `_fix_data_row` over the remaining
`(expected, actual)` pairs, `i` being the index of the first of them. -/
def rowLoop (i : Nat) (cols : List (Nat × Nat)) (st : RowState) : RowState :=
  match cols with
  | [] => st
  | (e, a) :: rest => rowLoop (i + 1) rest (rowStep i e a st)

/-- `_fix_data_row(data_line, expected_positions)`. -/
def fix_data_row (dataLine : List Char) (expected : List Nat) :
    List Char × List Fix × List Warn :=
  let actual := get_pipe_positions dataLine
  if actual = expected then (dataLine, [], [])
  else if actual.length ≠ expected.length then
    (dataLine, [], [Warn.mismatch expected.length actual.length])
  else
    let st := rowLoop 0 (expected.zip actual) ⟨dataLine, 0, [], []⟩
    (st.res, st.fixes, st.warns)

/-- Exception-aware `rowStep` (see `countSpacesBeforeChecked`). -/
def rowStepChecked (i : Nat) (e a : Nat) (st : RowState) : Option RowState :=
  let actual : Int := (a : Int) + st.cum
  let diff : Int := (e : Int) - actual
  if diff = 0 then some st
  else if 0 < diff then
    some { st with
      res := pySliceTo st.res actual ++ List.replicate diff.toNat ' ' ++ pySliceFrom st.res actual
      cum := st.cum + diff
      fixes := st.fixes ++ [Fix.added (i + 1) diff.toNat] }
  else
    match countSpacesBeforeChecked st.res actual with
    | none => none
    | some sb =>
      let rem := min (-diff).toNat sb
      if 0 < rem then
        some { st with
          res := pySliceTo st.res (actual - (rem : Int)) ++ pySliceFrom st.res actual
          cum := st.cum - (rem : Int)
          fixes := st.fixes ++ [Fix.removed (i + 1) rem] }
      else if sb = 0 then
        some { st with warns := st.warns ++ [Warn.tooLong (i + 1) ((-diff).toNat - rem)] }
      else some st

/-- Exception-aware column loop. -/
def rowLoopChecked (i : Nat) (cols : List (Nat × Nat)) (st : RowState) : Option RowState :=
  match cols with
  | [] => some st
  | (e, a) :: rest =>
    match rowStepChecked i e a st with
    | none => none
    | some st' => rowLoopChecked (i + 1) rest st'

/-- Exception-aware `_fix_data_row`: `none` models an uncaught `IndexError`. -/
def fix_data_row_checked (dataLine : List Char) (expected : List Nat) :
    Option (List Char × List Fix × List Warn) :=
  let actual := get_pipe_positions dataLine
  if actual = expected then some (dataLine, [], [])
  else if actual.length ≠ expected.length then
    some (dataLine, [], [Warn.mismatch expected.length actual.length])
  else
    match rowLoopChecked 0 (expected.zip actual) ⟨dataLine, 0, [], []⟩ with
    | none => none
    | some st => some (st.res, st.fixes, st.warns)

/-- A `{"line": ..., "fixes": [...]}` record of `fix_table_alignment`. -/
structure FixEntry where
  line : Nat
  fixes : List Fix
deriving DecidableEq, Repr

/-- A `{"line": ..., "warnings": [...]}` record of `fix_table_alignment`. -/
structure WarnEntry where
  line : Nat
  warnings : List Warn
deriving DecidableEq, Repr

/-- The `for line_num, table_line in table_lines` pass of
`fix_table_alignment`: data rows are fixed against the block grid, other
(border) rows pass through; `idx` is the 0-based document index of the first
table line, entries record 1-based line numbers. -/
def processRows (idx : Nat) (grid : List Nat) :
    List (List Char) → List (List Char) × List FixEntry × List WarnEntry
  | [] => ([], [], [])
  | ln :: rest =>
    let r := processRows (idx + 1) grid rest
    if is_table_data_line ln then
      let f := fix_data_row ln grid
      (f.1 :: r.1,
       (if f.2.1.isEmpty then r.2.1 else ⟨idx + 1, f.2.1⟩ :: r.2.1),
       (if f.2.2.isEmpty then r.2.2 else ⟨idx + 1, f.2.2⟩ :: r.2.2))
    else (ln :: r.1, r.2.1, r.2.2)

/-- The `elif _is_table_data_line(next_line)` / border continuation condition
of the inner collection loop. -/
def borderOrData (l : List Char) : Bool :=
  is_table_border_line l || is_table_data_line l

/-- The running `col_positions` update of the inner loop: starting from the
first border line's positions, every later *border* line with at least as many
positions replaces the grid. -/
def blockGrid (first : List Char) (tail : List (List Char)) : List Nat :=
  tail.foldl
    (fun g ln =>
      if is_table_border_line ln then
        if g.length ≤ (get_column_positions ln).length then get_column_positions ln else g
      else g)
    (get_column_positions first)

/-- The outer `while i < len(lines)` scan of `fix_table_alignment`.  The
Python loop advances `i` past each collected table block; that non-structural
recursion is made structural with a fuel argument (`fix_table_alignment`
supplies `fuel = lines.length`, which the scan never exhausts). -/
def fixLinesAux : Nat → Nat → List (List Char) →
    List (List Char) × List FixEntry × List WarnEntry
  | _, _, [] => ([], [], [])
  | 0, _, ln :: rest => (ln :: rest, [], [])
  | fuel + 1, idx, ln :: rest =>
    if is_table_border_line ln then
      let tbl := ln :: rest.takeWhile borderOrData
      let grid := blockGrid ln (rest.takeWhile borderOrData)
      let pr := processRows idx grid tbl
      let r := fixLinesAux fuel (idx + tbl.length) (rest.dropWhile borderOrData)
      (pr.1 ++ r.1, pr.2.1 ++ r.2.1, pr.2.2 ++ r.2.2)
    else
      let r := fixLinesAux fuel (idx + 1) rest
      (ln :: r.1, r.2.1, r.2.2)

/-- `fix_table_alignment(text)`, on the text's list of lines. -/
def fix_table_alignment (lines : List (List Char)) :
    List (List Char) × List FixEntry × List WarnEntry :=
  fixLinesAux lines.length 0 lines

/-- The table block grid governing document line `k`, read off by the same
scan as `fixLinesAux`: `some g` when line `k` is collected into a table block
whose final grid is `g`, `none` when it is an ordinary line. -/
def lineGridAux : Nat → List (List Char) → Nat → Option (List Nat)
  | _, [], _ => none
  | 0, _ :: _, _ => none
  | fuel + 1, ln :: rest, k =>
    if is_table_border_line ln then
      let tbl := ln :: rest.takeWhile borderOrData
      if k < tbl.length then some (blockGrid ln (rest.takeWhile borderOrData))
      else lineGridAux fuel (rest.dropWhile borderOrData) (k - tbl.length)
    else if k = 0 then none
    else lineGridAux fuel rest (k - 1)

/-- Entry point for `lineGridAux`. -/
def lineGrid (lines : List (List Char)) (k : Nat) : Option (List Nat) :=
  lineGridAux lines.length lines k

/-- Exception-aware table-pass (threads `fix_data_row_checked`). -/
def processRowsChecked (idx : Nat) (grid : List Nat) :
    List (List Char) → Option (List (List Char) × List FixEntry × List WarnEntry)
  | [] => some ([], [], [])
  | ln :: rest =>
    match processRowsChecked (idx + 1) grid rest with
    | none => none
    | some r =>
      if is_table_data_line ln then
        match fix_data_row_checked ln grid with
        | none => none
        | some f =>
          some (f.1 :: r.1,
            (if f.2.1.isEmpty then r.2.1 else ⟨idx + 1, f.2.1⟩ :: r.2.1),
            (if f.2.2.isEmpty then r.2.2 else ⟨idx + 1, f.2.2⟩ :: r.2.2))
      else some (ln :: r.1, r.2.1, r.2.2)

/-- Exception-aware outer scan. -/
def fixLinesAuxChecked : Nat → Nat → List (List Char) →
    Option (List (List Char) × List FixEntry × List WarnEntry)
  | _, _, [] => some ([], [], [])
  | 0, _, ln :: rest => some (ln :: rest, [], [])
  | fuel + 1, idx, ln :: rest =>
    if is_table_border_line ln then
      let tbl := ln :: rest.takeWhile borderOrData
      let grid := blockGrid ln (rest.takeWhile borderOrData)
      match processRowsChecked idx grid tbl with
      | none => none
      | some pr =>
        match fixLinesAuxChecked fuel (idx + tbl.length) (rest.dropWhile borderOrData) with
        | none => none
        | some r => some (pr.1 ++ r.1, pr.2.1 ++ r.2.1, pr.2.2 ++ r.2.2)
    else
      match fixLinesAuxChecked fuel (idx + 1) rest with
      | none => none
      | some r => some (ln :: r.1, r.2.1, r.2.2)

/-- Exception-aware `fix_table_alignment`: `none` models an uncaught
exception escaping the function. -/
def fix_table_alignment_checked (lines : List (List Char)) :
    Option (List (List Char) × List FixEntry × List WarnEntry) :=
  fixLinesAuxChecked lines.length 0 lines

/-- A `{"line", "original_length", "wrapped_to"}` record of `wrap_long_lines`. -/
structure WrapChange where
  line : Nat
  original_length : Nat
  wrapped_to : Nat
deriving DecidableEq, Repr

/-- `_get_max_table_width`: width of the widest line classified border or
data. -/
def get_max_table_width (lines : List (List Char)) : Nat :=
  lines.foldl
    (fun mw ln =>
      if is_table_border_line ln || is_table_data_line ln then max mw ln.length else mw)
    0

/-- `_get_line_indent`: the leading whitespace of a line. -/
def get_line_indent (l : List Char) : List Char :=
  l.takeWhile isPySpace

/-- The list-marker test `re.match(r'^([-*\u25cf\u251c\u2514]\s*|[0-9]+\.\s*)', content)`
of `wrap_long_lines`: a bullet glyph followed by optional whitespace, or a
digit run followed by a dot and optional whitespace; returns the matched
prefix. -/
def listMarker (content : List Char) : Option (List Char) :=
  match content with
  | [] => none
  | c :: rest =>
    if c ∈ ['-', '*', '\u25cf', '\u251c', '\u2514'] then
      some (c :: rest.takeWhile isPySpace)
    else
      let ds := content.takeWhile Char.isDigit
      if ds.isEmpty then none
      else
        match content.drop ds.length with
        | '.' :: rest2 => some (ds ++ '.' :: rest2.takeWhile isPySpace)
        | _ => none

/-- Whitespace-splitting used by the `textwrap.wrap` model: the maximal
non-whitespace words of the text, in order (`acc` is the current word,
reversed). -/
def splitWordsAux : List Char → List Char → List (List Char)
  | [], acc => if acc.isEmpty then [] else [acc.reverse]
  | c :: rest, acc =>
    if isPySpace c then
      if acc.isEmpty then splitWordsAux rest []
      else acc.reverse :: splitWordsAux rest []
    else splitWordsAux rest (c :: acc)

/-- Greedy line filling of the `textwrap.wrap` model: `cur` is the line being
filled; a word is appended when it still fits in `width`, otherwise it starts
a new line (an over-long word stands alone, as with
`break_long_words=False`). -/
def greedyFill (width : Int) : List (List Char) → List Char → List (List Char)
  | [], cur => [cur]
  | w :: ws, cur =>
    if (cur.length : Int) + 1 + (w.length : Int) ≤ width then
      greedyFill width ws (cur ++ ' ' :: w)
    else cur :: greedyFill width ws w

/-- Models the Python stdlib `textwrap.wrap(text, width, subsequent_indent='',
break_long_words=False, break_on_hyphens=True)` (an external library, not code
of this repository): whitespace-separated words packed greedily, single spaces
between words, an unbreakable over-long word alone on its line, `[]` for
whitespace-only input.  Hyphen splitting is not modelled; no claim depends on
it. -/
def textwrap_wrap (s : List Char) (width : Int) : List (List Char) :=
  match splitWordsAux s [] with
  | [] => []
  | w :: ws => greedyFill width ws w

/-- The per-line body of `wrap_long_lines`' loop: returns the output lines the
input line `ln` (at 0-based document index `i`) contributes, and the change
records produced for it. -/
def wrap_line (maxW : Nat) (i : Nat) (ln : List Char) :
    List (List Char) × List WrapChange :=
  if is_table_border_line ln || is_table_data_line ln then ([ln], [])
  else if (pyStrip ln).isEmpty then ([ln], [])
  else if ln.length ≤ maxW then ([ln], [])
  else
    let indent := get_line_indent ln
    let content := pyStrip ln
    let pfx := match listMarker content with
      | some p => p
      | none => []
    let content2 := content.drop pfx.length
    let subIndent := indent ++ List.replicate pfx.length ' '
    let firstW : Int := (maxW : Int) - (indent.length : Int) - (pfx.length : Int)
    let subW : Int := (maxW : Int) - (subIndent.length : Int)
    if firstW < 20 || subW < 20 then ([ln], [])
    else
      let wrapped := textwrap_wrap content2 firstW
      if wrapped.length ≤ 1 then ([ln], [])
      else
        match wrapped with
        | [] => ([ln], [])
        | w0 :: wrest =>
          ((indent ++ pfx ++ w0) ::
            (wrest.map (fun w => (textwrap_wrap w subW).map (fun rw => subIndent ++ rw))).flatten,
           [⟨i + 1, ln.length,
             wrapped.length + (wrest.map (fun w => (textwrap_wrap w subW).length - 1)).sum⟩])

/-- The `for i, line in enumerate(lines)` loop of `wrap_long_lines`. -/
def wrapAux (maxW : Nat) (i : Nat) :
    List (List Char) → List (List Char) × List WrapChange
  | [] => ([], [])
  | ln :: rest =>
    let h := wrap_line maxW i ln
    let r := wrapAux maxW (i + 1) rest
    (h.1 ++ r.1, h.2 ++ r.2)

/-- `wrap_long_lines(text, max_width)` on the text's list of lines. -/
def wrap_long_lines (lines : List (List Char)) (maxWidth : Option Nat) :
    List (List Char) × List WrapChange :=
  let mw := match maxWidth with
    | some w => w
    | none =>
      let w := get_max_table_width lines
      if w = 0 then 120 else w
  wrapAux mw 0 lines

/-- Exception-aware `wrap_line`: the only fallible operation in the loop body
is the `wrapped[0]` indexing, guarded by the `len(wrapped) <= 1` test. -/
def wrap_line_checked (maxW : Nat) (i : Nat) (ln : List Char) :
    Option (List (List Char) × List WrapChange) :=
  if is_table_border_line ln || is_table_data_line ln then some ([ln], [])
  else if (pyStrip ln).isEmpty then some ([ln], [])
  else if ln.length ≤ maxW then some ([ln], [])
  else
    let indent := get_line_indent ln
    let content := pyStrip ln
    let pfx := match listMarker content with
      | some p => p
      | none => []
    let content2 := content.drop pfx.length
    let subIndent := indent ++ List.replicate pfx.length ' '
    let firstW : Int := (maxW : Int) - (indent.length : Int) - (pfx.length : Int)
    let subW : Int := (maxW : Int) - (subIndent.length : Int)
    if firstW < 20 || subW < 20 then some ([ln], [])
    else
      let wrapped := textwrap_wrap content2 firstW
      if wrapped.length ≤ 1 then some ([ln], [])
      else
        match wrapped with
        | [] => none
        | w0 :: wrest =>
          some ((indent ++ pfx ++ w0) ::
            (wrest.map (fun w => (textwrap_wrap w subW).map (fun rw => subIndent ++ rw))).flatten,
           [⟨i + 1, ln.length,
             wrapped.length + (wrest.map (fun w => (textwrap_wrap w subW).length - 1)).sum⟩])

/-- Exception-aware wrap loop. -/
def wrapAuxChecked (maxW : Nat) (i : Nat) :
    List (List Char) → Option (List (List Char) × List WrapChange)
  | [] => some ([], [])
  | ln :: rest =>
    match wrap_line_checked maxW i ln with
    | none => none
    | some h =>
      match wrapAuxChecked maxW (i + 1) rest with
      | none => none
      | some r => some (h.1 ++ r.1, h.2 ++ r.2)

/-- Exception-aware `wrap_long_lines`. -/
def wrap_long_lines_checked (lines : List (List Char)) (maxWidth : Option Nat) :
    Option (List (List Char) × List WrapChange) :=
  let mw := match maxWidth with
    | some w => w
    | none =>
      let w := get_max_table_width lines
      if w = 0 then 120 else w
  wrapAuxChecked mw 0 lines

/-- The status computation of `fix_text_file`, as a function of the file's
text (reading/writing the file is abstracted away; the status depends only on
the fixes and warnings of `fix_table_alignment`). -/
def fix_text_file_status (lines : List (List Char)) : String :=
  let r := fix_table_alignment lines
  if r.2.1 = [] ∧ r.2.2 = [] then "no_changes"
  else
    let status := if r.2.1 ≠ [] then "fixed" else "warnings_only"
    if r.2.1 ≠ [] ∧ r.2.2 ≠ [] then "partial" else status

/-- One entry of `fix_all_text_files`' result list, as a function of the
outcome of reading and fixing one file: `none` models `fix_text_file` raising
(the `except Exception` arm), `some text` a file whose content was read. -/
def fix_all_entry_status (r : Option (List (List Char))) : String :=
  match r with
  | none => "error"
  | some lines => fix_text_file_status lines

/-- The status computation of `format_text_file`: table alignment followed by
wrapping of the fixed text; `"no_changes"` when nothing was computed,
otherwise the literal status string `"formatted"` from the source. -/
def format_text_file_status (lines : List (List Char)) (maxWidth : Option Nat) : String :=
  let r := fix_table_alignment lines
  let w := wrap_long_lines r.1 maxWidth
  if r.2.1 = [] ∧ r.2.2 = [] ∧ w.2 = [] then "no_changes" else "formatted"

/-! ### Lemmas about the position-collecting loop -/

theorem charPositionsAux_append (p : Char → Bool) (xs ys : List Char) (i : Nat) :
    charPositionsAux p (xs ++ ys) i =
      charPositionsAux p xs i ++ charPositionsAux p ys (i + xs.length) := by
  induction xs generalizing i with
  | nil => simp [charPositionsAux]
  | cons c cs ih =>
    simp only [List.cons_append, charPositionsAux]
    by_cases h : p c <;>
      simp [h, ih, List.length_cons, Nat.add_comm, Nat.add_assoc, Nat.add_left_comm]

theorem charPositionsAux_ge (p : Char → Bool) :
    ∀ (l : List Char) (i : Nat), ∀ j ∈ charPositionsAux p l i, i ≤ j := by
  intro l
  induction l with
  | nil => intro i j hj; simp [charPositionsAux] at hj
  | cons c cs ih =>
    intro i j hj
    simp only [charPositionsAux] at hj
    by_cases h : p c
    · simp [h] at hj
      rcases hj with rfl | hj
      · exact Nat.le_refl _
      · exact Nat.le_trans (Nat.le_succ _) (ih (i + 1) j hj)
    · simp [h] at hj
      exact Nat.le_trans (Nat.le_succ _) (ih (i + 1) j hj)

theorem charPositionsAux_sorted (p : Char → Bool) :
    ∀ (l : List Char) (i : Nat), (charPositionsAux p l i).Pairwise (· < ·) := by
  intro l
  induction l with
  | nil => intro i; simp [charPositionsAux]
  | cons c cs ih =>
    intro i
    by_cases h : p c
    · simp only [charPositionsAux, h, if_true]
      refine List.pairwise_cons.2 ⟨?_, ih (i + 1)⟩
      intro j hj
      exact Nat.lt_of_lt_of_le (Nat.lt_succ_self i) (charPositionsAux_ge p cs (i + 1) j hj)
    · simpa only [charPositionsAux, h, if_false] using ih (i + 1)

theorem charPositionsAux_mem (p : Char → Bool) :
    ∀ (l : List Char) (i j : Nat),
      j ∈ charPositionsAux p l i ↔
        ∃ k, k < l.length ∧ j = i + k ∧ p (l.getD k 'A') = true := by
  intro l
  induction l with
  | nil => intro i j; simp [charPositionsAux]
  | cons c cs ih =>
    intro i j
    simp only [charPositionsAux]
    constructor
    · intro hj
      by_cases h : p c
      · simp [h] at hj
        rcases hj with rfl | hj
        · exact ⟨0, by simp, by simp, by simpa using h⟩
        · obtain ⟨k, hk, rfl, hp⟩ := (ih (i + 1) _).1 hj
          exact ⟨k + 1, by simpa using hk, by omega, by simpa using hp⟩
      · simp [h] at hj
        obtain ⟨k, hk, rfl, hp⟩ := (ih (i + 1) _).1 hj
        exact ⟨k + 1, by simpa using hk, by omega, by simpa using hp⟩
    · rintro ⟨k, hk, rfl, hp⟩
      match k with
      | 0 =>
        simp only [List.getD_cons_zero] at hp
        simp [hp]
      | k + 1 =>
        simp only [List.getD_cons_succ] at hp
        have : i + (k + 1) ∈ charPositionsAux p cs (i + 1) :=
          (ih (i + 1) _).2 ⟨k, by simpa using hk, by omega, hp⟩
        by_cases h : p c <;> simp [h, this]

theorem charPositionsAux_mem_zero (p : Char → Bool) (l : List Char) (j : Nat) :
    j ∈ charPositionsAux p l 0 ↔ j < l.length ∧ p (l.getD j 'A') = true := by
  rw [charPositionsAux_mem]
  constructor
  · rintro ⟨k, hk, rfl, hp⟩
    rw [Nat.zero_add]
    exact ⟨hk, hp⟩
  · rintro ⟨hj, hp⟩
    exact ⟨j, hj, (Nat.zero_add j).symm, hp⟩

theorem charPositionsAux_eq_nil (p : Char → Bool) :
    ∀ (l : List Char) (i : Nat),
      charPositionsAux p l i = [] ↔ ∀ c ∈ l, p c = false := by
  intro l
  induction l with
  | nil => intro i; simp [charPositionsAux]
  | cons c cs ih =>
    intro i
    by_cases h : p c <;> simp [charPositionsAux, h, ih (i + 1)]

theorem get_pipe_positions_lt (l : List Char) (j : Nat)
    (hj : j ∈ get_pipe_positions l) : j < l.length :=
  ((charPositionsAux_mem_zero _ l j).1 hj).1

/-! ### C4 -/

/-- C4 (counterexample): on the border line `├─┬─┤` the extractor returns only
the offset of `┬`; the leading left tee `├` contributes no offset 0, contrary
to the claim that tee glyphs `├`/`┤` are column separators. -/
theorem get_column_positions_left_tee_counterexample :
    get_column_positions ['├', '─', '┬', '─', '┤'] = [2] ∧
    ¬ (0 ∈ get_column_positions ['├', '─', '┬', '─', '┤']) := by
  constructor <;> decide

/-- C4 (amended): the extractor returns exactly the ordered offsets of the
characters that are corner glyphs (┌┐╭╮└┘╯╰), top/bottom tee glyphs (┬ ┴) or
the cross glyph (┼); the left/right tees `├` `┤` are *not* column separators,
so a border line starting with `├` contributes no offset 0 for it. -/
theorem get_column_positions_spec (l : List Char) :
    (get_column_positions l).Pairwise (· < ·) ∧
    (∀ j, j ∈ get_column_positions l ↔
      j < l.length ∧ l.getD j 'A' ∈ BOX_COL_SEPARATORS) ∧
    ¬ ('├' ∈ BOX_COL_SEPARATORS) ∧ ¬ ('┤' ∈ BOX_COL_SEPARATORS) := by
  refine ⟨charPositionsAux_sorted _ l 0, ?_, by decide, by decide⟩
  intro j
  rw [get_column_positions, charPositionsAux_mem_zero]
  simp

/-! ### C9 -/

/-- C9 (counterexample): `format_text_file` on a fixable table reports the
status `"formatted"`, which is outside the claimed status set. -/
theorem format_status_counterexample :
    format_text_file_status
      [['┌', '─', '┬', '─', '─', '┐'],
       ['│', 'A', 'B', ' ', '│', 'C', '│'],
       ['└', '─', '┴', '─', '─', '┘']] none = "formatted" ∧
    ¬ ("formatted" ∈ ["no_changes", "fixed", "partial", "warnings_only", "error"]) := by
  constructor
  · decide
  · decide

/-- C9 (amended): `fix_text_file` and each batch entry of
`fix_all_text_files` report a status from
{no_changes, fixed, partial, warnings_only, error}; `format_text_file`
however reports `"no_changes"` or the out-of-set status `"formatted"`. -/
theorem file_status_spec :
    (∀ lines, fix_text_file_status lines ∈
        ["no_changes", "fixed", "partial", "warnings_only", "error"]) ∧
    (∀ r, fix_all_entry_status r ∈
        ["no_changes", "fixed", "partial", "warnings_only", "error"]) ∧
    (∀ lines maxWidth, format_text_file_status lines maxWidth ∈
        ["no_changes", "formatted"]) := by
  have h1 : ∀ lines, fix_text_file_status lines ∈
      ["no_changes", "fixed", "partial", "warnings_only", "error"] := by
    intro lines
    unfold fix_text_file_status
    dsimp only
    split_ifs <;> simp
  refine ⟨h1, ?_, ?_⟩
  · intro r
    match r with
    | none => simp [fix_all_entry_status]
    | some lines => exact h1 lines
  · intro lines maxWidth
    unfold format_text_file_status
    dsimp only
    split_ifs <;> simp

/-! ### C7 -/

theorem get_max_table_width_foldl (lines : List (List Char)) :
    ∀ a : Nat,
      lines.foldl
        (fun mw ln =>
          if is_table_border_line ln || is_table_data_line ln then max mw ln.length else mw)
        a =
      max a
        (((lines.filter
            (fun l => is_table_border_line l || is_table_data_line l)).map
              List.length).foldr max 0) := by
  induction lines with
  | nil => intro a; simp
  | cons ln rest ih =>
    intro a
    by_cases h : is_table_border_line ln || is_table_data_line ln
    · simp only [List.foldl_cons, List.filter_cons, h, if_true, List.map_cons,
        List.foldr_cons, ih]
      exact max_assoc a ln.length _
    · simp only [List.foldl_cons, List.filter_cons, h]
      rw [if_neg (by simpa using h), if_neg (by simpa using h), ih]

/-- C7 (counterexample): a document containing a lone data-shaped line (no
border line, hence no TableBlock) does not default the wrap budget to 120: the
lone data line sets it, so a 40-character plain line is wrapped under the
defaulted budget (25) but untouched under an explicit budget of 120. -/
theorem wrap_default_width_counterexample :
    is_table_data_line "│aaaaaaaaaaaaaaaaaaaaaaa│".data = true ∧
    is_table_border_line "│aaaaaaaaaaaaaaaaaaaaaaa│".data = false ∧
    is_table_border_line "ab ab ab ab ab ab ab ab ab ab ab ab ab a".data = false ∧
    is_table_data_line "ab ab ab ab ab ab ab ab ab ab ab ab ab a".data = false ∧
    wrap_long_lines
        ["│aaaaaaaaaaaaaaaaaaaaaaa│".data,
         "ab ab ab ab ab ab ab ab ab ab ab ab ab a".data] none ≠
      wrap_long_lines
        ["│aaaaaaaaaaaaaaaaaaaaaaa│".data,
         "ab ab ab ab ab ab ab ab ab ab ab ab ab a".data] (some 120) := by
  refine ⟨by decide, by decide, by decide, by decide, by decide⟩

/-- C7 (amended): with no explicit `max_width`, the budget is the length of
the widest line *classified* as a border or data line — whether or not it
belongs to a TableBlock — and 120 when no such line exists. -/
theorem wrap_default_width_spec (lines : List (List Char)) :
    wrap_long_lines lines none =
      wrap_long_lines lines
        (some (if get_max_table_width lines = 0 then 120 else get_max_table_width lines)) ∧
    get_max_table_width lines =
      ((lines.filter
          (fun l => is_table_border_line l || is_table_data_line l)).map
            List.length).foldr max 0 := by
  constructor
  · rfl
  · rw [get_max_table_width, get_max_table_width_foldl lines 0]
    simp

/-! ### C6 -/

theorem wrap_line_table (maxW i : Nat) (ln : List Char)
    (h : (is_table_border_line ln || is_table_data_line ln) = true) :
    wrap_line maxW i ln = ([ln], []) := by
  unfold wrap_line
  rw [h]
  rfl

theorem wrapAux_mem_table (maxW : Nat) (ln : List Char)
    (h : (is_table_border_line ln || is_table_data_line ln) = true) :
    ∀ (lines : List (List Char)) (i : Nat), ln ∈ lines → ln ∈ (wrapAux maxW i lines).1 := by
  intro lines
  induction lines with
  | nil => intro i hm; simp at hm
  | cons x rest ih =>
    intro i hm
    rcases List.mem_cons.1 hm with rfl | hm
    · simp only [wrapAux, wrap_line_table maxW i ln h]
      simp
    · simp only [wrapAux]
      exact List.mem_append_right _ (ih (i + 1) hm)

/-- C6: `wrap_long_lines` leaves every line classified as a border line or a
data line unchanged, regardless of its length: the per-line body returns the
line itself with no change record, and the line appears as-is in the output. -/
theorem wrap_preserves_table_lines (lines : List (List Char)) (maxWidth : Option Nat)
    (ln : List Char) (hmem : ln ∈ lines)
    (htab : (is_table_border_line ln || is_table_data_line ln) = true) :
    (∀ maxW i, wrap_line maxW i ln = ([ln], [])) ∧
    ln ∈ (wrap_long_lines lines maxWidth).1 := by
  constructor
  · intro maxW i
    exact wrap_line_table maxW i ln htab
  · exact wrapAux_mem_table _ ln htab lines 0 hmem

/-- C6 (witness): a concrete document with a border line, an over-long data
line and a plain line; the data line passes through `wrap_long_lines`
unchanged. -/
theorem wrap_preserves_table_lines_witness :
    "│AB│C│".data ∈ ["┌─┬──┐".data, "│AB│C│".data, "xyz".data] ∧
    (is_table_border_line "│AB│C│".data || is_table_data_line "│AB│C│".data) = true ∧
    "│AB│C│".data ∈
      (wrap_long_lines ["┌─┬──┐".data, "│AB│C│".data, "xyz".data] (some 3)).1 := by
  refine ⟨by decide, by decide, ?_⟩
  exact (wrap_preserves_table_lines
    ["┌─┬──┐".data, "│AB│C│".data, "xyz".data] (some 3) "│AB│C│".data
    (by decide) (by decide)).2

/-! ### Helper notions for the row-aligner invariant -/

/-- No space character immediately precedes offset `p` of `s`. -/
def noSpaceAt (s : List Char) (p : Nat) : Prop :=
  p = 0 ∨ s.getD (p - 1) 'A' ≠ ' '

instance (s : List Char) (p : Nat) : Decidable (noSpaceAt s p) := by
  unfold noSpaceAt; infer_instance

/-- The first offset after the `j`-th pipe of a data line with pipe offsets
`a` (0 when `j = 0`): everything before it is settled after `j` iterations of
the `_fix_data_row` loop. -/
def endIdx (a : List Nat) : Nat → Nat
  | 0 => 0
  | j + 1 => a.getD j 0 + 1

theorem noSpaceAt_append (D X : List Char) (p : Nat) (hp : p ≤ D.length)
    (h : noSpaceAt D p) : noSpaceAt (D ++ X) p := by
  rcases Nat.eq_zero_or_pos p with rfl | hpos
  · exact Or.inl rfl
  · rcases h with h | h
    · exact Or.inl h
    · right
      have hlt : p - 1 < D.length := by omega
      rw [List.getD_eq_getElem?_getD, List.getElem?_append, if_pos hlt,
        ← List.getD_eq_getElem?_getD]
      exact h

/-! ### Trailing spaces -/

theorem trailingSpaces_le (s : List Char) : trailingSpaces s ≤ s.length := by
  calc (s.reverse.takeWhile (fun c => decide (c = ' '))).length
      ≤ s.reverse.length := (List.takeWhile_sublist _).length_le
    _ = s.length := s.length_reverse

theorem trailingSpaces_decomp (s : List Char) :
    ∃ Y, s = Y ++ List.replicate (trailingSpaces s) ' ' ∧
      (∀ ch, Y.getLast? = some ch → ch ≠ ' ') := by
  refine ⟨(s.reverse.dropWhile (fun c => decide (c = ' '))).reverse, ?_, ?_⟩
  · have hsplit := List.takeWhile_append_dropWhile
      (p := fun c => decide (c = ' ')) (l := s.reverse)
    have hrep : s.reverse.takeWhile (fun c => decide (c = ' ')) =
        List.replicate (trailingSpaces s) ' ' := by
      apply List.eq_replicate_of_mem
      intro b hb
      have hpb := List.mem_takeWhile_imp hb
      simpa using hpb
    calc s = s.reverse.reverse := (List.reverse_reverse s).symm
      _ = (s.reverse.takeWhile (fun c => decide (c = ' ')) ++
            s.reverse.dropWhile (fun c => decide (c = ' '))).reverse := by rw [hsplit]
      _ = (s.reverse.dropWhile (fun c => decide (c = ' '))).reverse ++
            (s.reverse.takeWhile (fun c => decide (c = ' '))).reverse := by
            rw [List.reverse_append]
      _ = _ := by rw [hrep, List.reverse_replicate]
  · intro ch hch
    have hhead : (s.reverse.dropWhile (fun c => decide (c = ' '))).head? = some ch := by
      simpa using hch
    have := List.head?_dropWhile_not (fun c => decide (c = ' ')) s.reverse
    rw [hhead] at this
    simpa using this

theorem trailingSpaces_eq_zero (s : List Char)
    (h : ∀ ch, s.getLast? = some ch → ch ≠ ' ') : trailingSpaces s = 0 := by
  unfold trailingSpaces
  match hs : s.reverse with
  | [] => simp
  | c :: rest =>
    have : s.getLast? = some c := by
      have := congrArg List.head? hs
      simpa using this
    have hc : ¬ (c = ' ') := h c this
    simp [List.takeWhile_cons, hc]

theorem getLast?_ne_space_of_trailingSpaces_eq_zero (s : List Char)
    (h : trailingSpaces s = 0) : ∀ ch, s.getLast? = some ch → ch ≠ ' ' := by
  intro ch hch hsp
  subst hsp
  unfold trailingSpaces at h
  match hs : s.reverse with
  | [] =>
    have : s.getLast? = none := by
      have := congrArg List.head? hs
      simpa using this
    rw [this] at hch; exact Option.noConfusion hch
  | c :: rest =>
    have hcl : s.getLast? = some c := by
      have := congrArg List.head? hs
      simpa using this
    rw [hcl] at hch
    have : c = ' ' := Option.some_inj.1 hch
    subst this
    rw [hs] at h
    simp [List.takeWhile_cons] at h

theorem trailingSpaces_append_le (D S : List Char) (hD : trailingSpaces D = 0) :
    trailingSpaces (D ++ S) ≤ S.length := by
  unfold trailingSpaces at *
  rw [List.reverse_append, List.takeWhile_append]
  split_ifs with h
  · -- all of S.reverse is spaces, so takeWhile on D.reverse has length 0
    calc (S.reverse ++ D.reverse.takeWhile (fun c => decide (c = ' '))).length
        = S.reverse.length + (D.reverse.takeWhile (fun c => decide (c = ' '))).length := by
          rw [List.length_append]
      _ = S.length + 0 := by rw [hD, List.length_reverse]
      _ ≤ S.length := by omega
  · calc (S.reverse.takeWhile (fun c => decide (c = ' '))).length
        ≤ S.reverse.length := (List.takeWhile_sublist _).length_le
      _ = S.length := S.length_reverse

/-! ### Facts about the pipe offsets of a data line -/

theorem get_pipe_positions_sorted (l : List Char) :
    (get_pipe_positions l).Pairwise (· < ·) :=
  charPositionsAux_sorted _ l 0

theorem get_pipe_positions_mem (l : List Char) (j : Nat) :
    j ∈ get_pipe_positions l ↔ j < l.length ∧ l.getD j 'A' ∈ BOX_VERTICAL := by
  rw [get_pipe_positions, charPositionsAux_mem_zero]
  simp

theorem pipe_getD (l : List Char) (a : List Nat) (ha : a = get_pipe_positions l)
    (k : Nat) (hk : k < a.length) :
    a.getD k 0 < l.length ∧ l.getD (a.getD k 0) 'A' ∈ BOX_VERTICAL := by
  subst ha
  have hmem : (get_pipe_positions l).getD k 0 ∈ get_pipe_positions l := by
    rw [List.getD_eq_getElem?_getD, List.getElem?_eq_getElem hk]
    exact List.getElem_mem hk
  exact (get_pipe_positions_mem l _).1 hmem

theorem pipe_mono (l : List Char) (a : List Nat) (ha : a = get_pipe_positions l)
    (k k' : Nat) (hkk : k < k') (hk' : k' < a.length) :
    a.getD k 0 < a.getD k' 0 := by
  have hs : a.Pairwise (· < ·) := ha ▸ get_pipe_positions_sorted l
  have hk : k < a.length := Nat.lt_trans hkk hk'
  have := List.pairwise_iff_get.1 hs ⟨k, hk⟩ ⟨k', hk'⟩ hkk
  rw [List.getD_eq_getElem?_getD, List.getElem?_eq_getElem hk,
    List.getD_eq_getElem?_getD, List.getElem?_eq_getElem hk']
  simpa using this

theorem endIdx_le_pipe (l : List Char) (a : List Nat) (ha : a = get_pipe_positions l)
    (k : Nat) (hk : k < a.length) : endIdx a k ≤ a.getD k 0 := by
  match k with
  | 0 => exact Nat.zero_le _
  | k + 1 =>
    have := pipe_mono l a ha k (k + 1) (Nat.lt_succ_self k) hk
    simpa [endIdx] using this

/-- No pipe character sits strictly between the `(k-1)`-th pipe and the
`k`-th pipe of `l`. -/
theorem gap_no_pipe (l : List Char) (a : List Nat) (ha : a = get_pipe_positions l)
    (k : Nat) (hk : k < a.length) (j : Nat) (hlo : endIdx a k ≤ j)
    (hhi : j < a.getD k 0) : ¬ (l.getD j 'A' ∈ BOX_VERTICAL) := by
  intro hp
  have hjlen : j < l.length := by
    have := (pipe_getD l a ha k hk).1
    omega
  have hmem : j ∈ a := by
    rw [ha]; exact (get_pipe_positions_mem l j).2 ⟨hjlen, hp⟩
  obtain ⟨t, ht, hjt⟩ := List.getElem_of_mem hmem
  have hgt : a.getD t 0 = j := by
    rw [List.getD_eq_getElem?_getD, List.getElem?_eq_getElem ht]
    simpa using hjt
  rcases Nat.lt_or_ge t k with htk | htk
  · -- pipe t is before pipe k, but j lies past endIdx a k > a.getD (k-1)
    match k, htk with
    | k + 1, htk =>
      have hle : a.getD t 0 ≤ a.getD k 0 := by
        rcases Nat.lt_or_ge t k with h | h
        · exact Nat.le_of_lt (pipe_mono l a ha t k h (by omega))
        · have : t = k := by omega
          subst this; exact Nat.le_refl _
      simp only [endIdx] at hlo
      omega
  · rcases Nat.eq_or_lt_of_le htk with rfl | htk'
    · omega
    · have := pipe_mono l a ha k t htk' ht
      omega

/-- No pipe character sits at or past `endIdx a a.length` (i.e. after the
last pipe). -/
theorem after_last_no_pipe (l : List Char) (a : List Nat)
    (ha : a = get_pipe_positions l) (j : Nat) (hlo : endIdx a a.length ≤ j) :
    ¬ (l.getD j 'A' ∈ BOX_VERTICAL) := by
  intro hp
  by_cases hjlen : j < l.length
  · have hmem : j ∈ a := by
      rw [ha]; exact (get_pipe_positions_mem l j).2 ⟨hjlen, hp⟩
    obtain ⟨t, ht, hjt⟩ := List.getElem_of_mem hmem
    have hgt : a.getD t 0 = j := by
      rw [List.getD_eq_getElem?_getD, List.getElem?_eq_getElem ht]
      simpa using hjt
    match hn : a.length, ht with
    | n + 1, ht =>
      have hle : a.getD t 0 ≤ a.getD n 0 := by
        rcases Nat.lt_or_ge t n with h | h
        · exact Nat.le_of_lt (pipe_mono l a ha t n h (by omega))
        · have : t = n := by omega
          subst this; exact Nat.le_refl _
      rw [hn] at hlo
      simp only [endIdx] at hlo
      omega
  · have hA : l.getD j 'A' = 'A' := by
      rw [List.getD_eq_getElem?_getD, List.getElem?_eq_none (by omega)]
      rfl
    rw [hA] at hp
    exact absurd hp (by decide)

/-! ### Composition lemmas for pipe positions -/

theorem pipe_not_space (c : Char) (h : c ∈ BOX_VERTICAL) : isPySpace c = false := by
  have : c = '│' ∨ c = '┃' := by simpa [BOX_VERTICAL] using h
  rcases this with rfl | rfl <;> decide

theorem charPositionsAux_singleton (p : Char → Bool) (c : Char) (i : Nat) :
    charPositionsAux p [c] i = if p c then [i] else [] := by
  by_cases h : p c <;> simp [charPositionsAux, h]

theorem pipePos_append_no_pipe_concat (D W : List Char) (c : Char)
    (hW : ∀ ch ∈ W, ¬ (ch ∈ BOX_VERTICAL)) (hc : c ∈ BOX_VERTICAL) :
    get_pipe_positions (D ++ W ++ [c]) =
      get_pipe_positions D ++ [D.length + W.length] := by
  have hWnil : ∀ i, charPositionsAux (fun ch => decide (ch ∈ BOX_VERTICAL)) W i = [] := by
    intro i
    rw [charPositionsAux_eq_nil]
    intro ch hch
    simpa using hW ch hch
  rw [get_pipe_positions, List.append_assoc, charPositionsAux_append,
    charPositionsAux_append, hWnil, charPositionsAux_singleton]
  simp [hc, get_pipe_positions, Nat.add_assoc]

theorem filter_replicate_space (n : Nat) :
    (List.replicate n ' ').filter (fun c => !(isPySpace c)) = [] := by
  induction n with
  | zero => rfl
  | succ n ih => rw [List.replicate_succ, List.filter_cons]; simp [isPySpace, ih]

/-! ### The `_fix_data_row` loop invariant -/

/-- Invariant of the `_fix_data_row` column loop after `j` iterations, for a
data line `l` with pipe offsets `a` and expected offsets `e`: the settled
prefix `D` (everything up to and including the `j`-th pipe, as rewritten so
far) followed by the untouched remainder of `l`; `D`'s pipes sit at or right
of their expected offsets, with no removable space left when a residual
misalignment remains; the non-space content of `D` is that of the
corresponding prefix of `l`; and a state with no fixes and no warnings is
still pristine. -/
def RowInv (l : List Char) (e a : List Nat) (j : Nat) (st : RowState) : Prop :=
  ∃ D settled,
    st.res = D ++ l.drop (endIdx a j) ∧
    (D.length : Int) = (endIdx a j : Int) + st.cum ∧
    get_pipe_positions D = settled ∧
    List.Forall₂ (fun ek sk => ek ≤ sk ∧ (ek < sk → noSpaceAt D sk)) (e.take j) settled ∧
    (j = 0 → D = [] ∧ st.cum = 0) ∧
    (j ≠ 0 → ∃ c, D.getLast? = some c ∧ c ∈ BOX_VERTICAL) ∧
    D.filter (fun c => !(isPySpace c)) =
      (l.take (endIdx a j)).filter (fun c => !(isPySpace c)) ∧
    ((st.fixes = [] ∧ st.warns = []) →
      st.cum = 0 ∧ D = l.take (endIdx a j) ∧ settled = e.take j)

theorem rowInv_init (l : List Char) (e a : List Nat) :
    RowInv l e a 0 ⟨l, 0, [], []⟩ := by
  refine ⟨[], [], ?_, ?_, ?_, ?_, ?_, ?_, ?_, ?_⟩
  · simp [endIdx]
  · simp [endIdx]
  · rfl
  · simp
  · intro; exact ⟨rfl, rfl⟩
  · intro h; exact absurd rfl h
  · simp [endIdx]
  · intro; refine ⟨rfl, by simp [endIdx], by simp⟩

/-- The segment of `l` between the settled prefix and the `k`-th pipe. -/
theorem seg_no_pipe (l : List Char) (a : List Nat) (ha : a = get_pipe_positions l)
    (k : Nat) (hk : k < a.length) :
    ∀ ch ∈ (l.drop (endIdx a k)).take (a.getD k 0 - endIdx a k),
      ¬ (ch ∈ BOX_VERTICAL) := by
  intro ch hch
  obtain ⟨t, ht, hcht⟩ := List.getElem_of_mem hch
  have hlen := ht
  simp only [List.length_take, List.length_drop] at hlen
  have hAlen : a.getD k 0 < l.length := (pipe_getD l a ha k hk).1
  have hme : endIdx a k ≤ a.getD k 0 := endIdx_le_pipe l a ha k hk
  have hbound : endIdx a k + t < l.length := by omega
  have hx : l[endIdx a k + t] = ch := by
    rw [← hcht, List.getElem_take, List.getElem_drop]
  have hgd : l.getD (endIdx a k + t) 'A' = ch := by
    rw [List.getD_eq_getElem?_getD, List.getElem?_eq_getElem (by omega : endIdx a k + t < l.length)]
    simpa using hx
  intro hp
  exact gap_no_pipe l a ha k hk (endIdx a k + t) (by omega) (by omega)
    (by rw [hgd]; exact hp)

/-- Closing a `_fix_data_row` loop iteration: the new settled prefix is
`D ++ W ++ [pipe j]` for a pipe-free middle `W`. -/
theorem rowInv_extend (l : List Char) (e a : List Nat)
    (ha : a = get_pipe_positions l) (he : e.length = a.length)
    (j : Nat) (hj : j < a.length)
    (st' : RowState) (D W : List Char) (settled : List Nat)
    (h1 : st'.res = (D ++ W ++ [l.getD (a.getD j 0) 'A']) ++ l.drop (a.getD j 0 + 1))
    (h2 : ((D ++ W ++ [l.getD (a.getD j 0) 'A']).length : Int) =
      ((a.getD j 0 + 1 : Nat) : Int) + st'.cum)
    (h3 : get_pipe_positions D = settled)
    (h4 : List.Forall₂ (fun ek sk => ek ≤ sk ∧ (ek < sk → noSpaceAt D sk))
      (e.take j) settled)
    (h5 : ∀ ch ∈ W, ¬ (ch ∈ BOX_VERTICAL))
    (h6 : e.getD j 0 ≤ D.length + W.length)
    (h7 : e.getD j 0 < D.length + W.length → noSpaceAt (D ++ W) (D.length + W.length))
    (h8 : D.filter (fun c => !(isPySpace c)) =
      (l.take (endIdx a j)).filter (fun c => !(isPySpace c)))
    (h9 : W.filter (fun c => !(isPySpace c)) =
      (((l.drop (endIdx a j)).take (a.getD j 0 - endIdx a j)).filter
        (fun c => !(isPySpace c))))
    (h10 : (st'.fixes = [] ∧ st'.warns = []) →
      st'.cum = 0 ∧ (D ++ W ++ [l.getD (a.getD j 0) 'A']) = l.take (a.getD j 0 + 1) ∧
        settled ++ [D.length + W.length] = e.take (j + 1)) :
    RowInv l e a (j + 1) st' := by
  have hAl : a.getD j 0 < l.length := (pipe_getD l a ha j hj).1
  have hcp : l.getD (a.getD j 0) 'A' ∈ BOX_VERTICAL := (pipe_getD l a ha j hj).2
  have hmA : endIdx a j ≤ a.getD j 0 := endIdx_le_pipe l a ha j hj
  have hje : j < e.length := by omega
  refine ⟨D ++ W ++ [l.getD (a.getD j 0) 'A'], settled ++ [D.length + W.length],
    ?_, ?_, ?_, ?_, ?_, ?_, ?_, ?_⟩
  · simpa [endIdx] using h1
  · simpa [endIdx] using h2
  · rw [pipePos_append_no_pipe_concat D W _ h5 hcp, h3]
  · -- pair conditions
    have hgde : e.getD j 0 = e[j] := by
      rw [List.getD_eq_getElem?_getD, List.getElem?_eq_getElem hje]
      rfl
    have hEtake : e.take (j + 1) = e.take j ++ [e.getD j 0] := by
      rw [List.take_succ, List.getElem?_eq_getElem hje, hgde]
      rfl
    rw [hEtake]
    refine List.rel_append ?_ ?_
    · rw [List.forall₂_iff_get] at h4 ⊢
      obtain ⟨hlen4, hget4⟩ := h4
      refine ⟨hlen4, fun i h1i h2i => ?_⟩
      obtain ⟨hle, hns⟩ := hget4 i h1i h2i
      refine ⟨hle, fun hlt => ?_⟩
      have hskD : settled.get ⟨i, h2i⟩ < D.length := by
        have hmem : settled.get ⟨i, h2i⟩ ∈ settled := settled.get_mem i h2i
        have hmem2 : settled.get ⟨i, h2i⟩ ∈ get_pipe_positions D := by
          rw [h3]; exact hmem
        exact get_pipe_positions_lt D _ hmem2
      have := noSpaceAt_append D (W ++ [l.getD (a.getD j 0) 'A']) _
        (Nat.le_of_lt hskD) (hns hlt)
      rwa [← List.append_assoc] at this
    · refine List.forall₂_cons.2 ⟨⟨h6, fun hlt => ?_⟩, List.Forall₂.nil⟩
      have h7' := h7 hlt
      have := noSpaceAt_append (D ++ W) [l.getD (a.getD j 0) 'A'] _
        (by simp) h7'
      exact this
  · intro h; omega
  · intro _
    exact ⟨l.getD (a.getD j 0) 'A', List.getLast?_concat _, hcp⟩
  · -- filter clause
    have hcsp : isPySpace (l.getD (a.getD j 0) 'A') = false := pipe_not_space _ hcp
    have hgdl : l.getD (a.getD j 0) 'A' = l[a.getD j 0] := by
      rw [List.getD_eq_getElem?_getD, List.getElem?_eq_getElem hAl]
      rfl
    have e1 : l.take (a.getD j 0 + 1) = l.take (a.getD j 0) ++ [l.getD (a.getD j 0) 'A'] := by
      rw [List.take_succ, List.getElem?_eq_getElem hAl, hgdl]
      rfl
    have e2 : l.take (a.getD j 0) =
        l.take (endIdx a j) ++ (l.drop (endIdx a j)).take (a.getD j 0 - endIdx a j) := by
      have harith : endIdx a j + (a.getD j 0 - endIdx a j) = a.getD j 0 := by omega
      have := List.take_add l (endIdx a j) (a.getD j 0 - endIdx a j)
      rwa [harith] at this
    show (D ++ W ++ [l.getD (a.getD j 0) 'A']).filter (fun c => !(isPySpace c)) =
      (l.take (endIdx a (j + 1))).filter (fun c => !(isPySpace c))
    simp only [endIdx]
    rw [e1, e2]
    simp only [List.filter_append, h8, h9, List.filter_cons]
  · intro hfw
    obtain ⟨hc, hD, hs⟩ := h10 hfw
    exact ⟨hc, by simpa [endIdx] using hD, by simpa [endIdx] using hs⟩

theorem countSpacesBeforeChecked_eq (s : List Char) (p : Int)
    (h : p ≤ (s.length : Int)) :
    countSpacesBeforeChecked s p = some (countSpacesBefore s p) := by
  unfold countSpacesBeforeChecked countSpacesBefore
  split_ifs with h1 h2
  · rfl
  · omega
  · rfl

theorem rowStepChecked_eq (i : Nat) (E A : Nat) (st : RowState)
    (hle : (A : Int) + st.cum ≤ (st.res.length : Int)) :
    rowStepChecked i E A st = some (rowStep i E A st) := by
  unfold rowStepChecked rowStep
  dsimp only
  rw [countSpacesBeforeChecked_eq st.res _ hle]
  dsimp only
  split_ifs <;> rfl

/-- One iteration of the `_fix_data_row` loop preserves the invariant, and
the exception-aware step agrees with it. -/
theorem rowInv_step (l : List Char) (e a : List Nat)
    (ha : a = get_pipe_positions l) (he : e.length = a.length)
    (j : Nat) (hj : j < a.length) (st : RowState)
    (inv : RowInv l e a j st) :
    RowInv l e a (j + 1) (rowStep j (e.getD j 0) (a.getD j 0) st) ∧
    rowStepChecked j (e.getD j 0) (a.getD j 0) st =
      some (rowStep j (e.getD j 0) (a.getD j 0) st) := by
  obtain ⟨D, settled, hres, hlen, hpipes, hpairs, hj0, hjlast, hfilter, hempty⟩ := inv
  have hAl : a.getD j 0 < l.length := (pipe_getD l a ha j hj).1
  have hcp : l.getD (a.getD j 0) 'A' ∈ BOX_VERTICAL := (pipe_getD l a ha j hj).2
  have hmA : endIdx a j ≤ a.getD j 0 := endIdx_le_pipe l a ha j hj
  have hje : j < e.length := by omega
  set m := endIdx a j with hm
  set A := a.getD j 0 with hA
  set E := e.getD j 0 with hE
  set S := (l.drop m).take (A - m) with hS
  have hSlen : S.length = A - m := by
    rw [hS]
    simp only [List.length_take, List.length_drop]
    omega
  have hSnp : ∀ ch ∈ S, ¬ (ch ∈ BOX_VERTICAL) := by
    rw [hS, hA, hm]
    exact seg_no_pipe l a ha j hj
  have hgdl : l.getD A 'A' = l[A] := by
    rw [List.getD_eq_getElem?_getD, List.getElem?_eq_getElem hAl]
    rfl
  have hdropm : l.drop m = S ++ l.getD A 'A' :: l.drop (A + 1) := by
    have h1 : l.drop m = S ++ (l.drop m).drop (A - m) := (List.take_append_drop _ _).symm
    have h2 : (l.drop m).drop (A - m) = l.drop A := by
      rw [List.drop_drop]
      congr 1
      omega
    have h3 : l.drop A = l[A] :: l.drop (A + 1) := List.drop_eq_getElem_cons hAl
    rw [h1, h2, h3, hgdl]
  have hres2 : st.res = (D ++ S) ++ (l.getD A 'A' :: l.drop (A + 1)) := by
    rw [hres, hdropm, ← List.append_assoc]
  have hDSlen : ((D ++ S).length : Int) = (A : Int) + st.cum := by
    rw [List.length_append, hSlen]
    push_cast [Nat.cast_sub hmA]
    omega
  have hresbound : (A : Int) + st.cum ≤ (st.res.length : Int) := by
    rw [hres2, ← hDSlen]
    simp only [List.length_append, List.length_cons]
    push_cast
    omega
  have htrailD : trailingSpaces D = 0 := by
    rcases Nat.eq_zero_or_pos j with rfl | hjpos
    · obtain ⟨hD0, -⟩ := hj0 rfl
      rw [hD0]
      rfl
    · obtain ⟨c0, hc0, hc0p⟩ := hjlast (by omega)
      refine trailingSpaces_eq_zero D ?_
      intro ch hch hsp
      rw [hc0] at hch
      have hcch : c0 = ch := Option.some_inj.1 hch
      subst hcch
      subst hsp
      exact absurd (pipe_not_space _ hc0p) (by decide)
  have hcsb : 0 < (A : Int) + st.cum →
      countSpacesBefore st.res ((A : Int) + st.cum) = trailingSpaces (D ++ S) := by
    intro hpos
    unfold countSpacesBefore
    rw [if_neg (by omega)]
    congr 1
    have htn : ((A : Int) + st.cum).toNat = (D ++ S).length := by omega
    rw [htn, hres2, List.take_left]
  have htakeA : l.take A = l.take m ++ S := by
    have harith : m + (A - m) = A := by omega
    have h0 := List.take_add l m (A - m)
    rw [harith] at h0
    rw [h0, hS]
  have htakeA1 : l.take (A + 1) = l.take A ++ [l.getD A 'A'] := by
    rw [List.take_succ, List.getElem?_eq_getElem hAl, hgdl]
    rfl
  have hEtake : e.take (j + 1) = e.take j ++ [E] := by
    have hgde : e.getD j 0 = e[j] := by
      rw [List.getD_eq_getElem?_getD, List.getElem?_eq_getElem hje]
      rfl
    rw [List.take_succ, List.getElem?_eq_getElem hje, hE, hgde]
    rfl
  refine ⟨?_, rowStepChecked_eq j E A st hresbound⟩
  unfold rowStep
  dsimp only
  split_ifs with h0 hpos hrem hsb
  · -- diff = 0 : untouched column
    have hEeq : (E : Int) = (A : Int) + st.cum := by omega
    refine rowInv_extend l e a ha he j hj st D S settled ?_ ?_ hpipes hpairs hSnp
      ?_ ?_ hfilter (by rw [hS, hm, hA]) ?_
    · rw [hres2, List.append_cons]
    · rw [List.length_append, List.length_append, List.length_singleton, hSlen]
      push_cast [Nat.cast_sub hmA]
      omega
    · -- E ≤ D.length + S.length
      have := hDSlen
      rw [List.length_append] at this
      omega
    · intro hlt
      have := hDSlen
      rw [List.length_append] at this
      omega
    · intro hfw
      obtain ⟨hc0, hD0, hs0⟩ := hempty hfw
      refine ⟨hc0, ?_, ?_⟩
      · rw [hD0, htakeA1, htakeA]
      · rw [hs0, hEtake]
        have heq : D.length + S.length = E := by
          have := hDSlen
          rw [List.length_append] at this
          omega
        rw [heq]
  · -- diff > 0 : insert spaces
    have hdpos : (0 : Int) < (E : Int) - ((A : Int) + st.cum) := hpos
    have hsliceTo : pySliceTo st.res ((A : Int) + st.cum) = D ++ S := by
      unfold pySliceTo
      rw [if_neg (by omega)]
      have htn : ((A : Int) + st.cum).toNat = (D ++ S).length := by omega
      rw [htn, hres2, List.take_left]
    have hsliceFrom : pySliceFrom st.res ((A : Int) + st.cum) =
        l.getD A 'A' :: l.drop (A + 1) := by
      unfold pySliceFrom
      rw [if_neg (by omega)]
      have htn : ((A : Int) + st.cum).toNat = (D ++ S).length := by omega
      rw [htn, hres2, List.drop_left]
    set d := ((E : Int) - ((A : Int) + st.cum)).toNat with hd
    have hdInt : (d : Int) = (E : Int) - ((A : Int) + st.cum) := by omega
    refine rowInv_extend l e a ha he j hj _ D (S ++ List.replicate d ' ') settled
      ?_ ?_ hpipes hpairs ?_ ?_ ?_ hfilter ?_ ?_
    · show pySliceTo st.res ((A : Int) + st.cum) ++ List.replicate d ' ' ++
        pySliceFrom st.res ((A : Int) + st.cum) = _
      rw [hsliceTo, hsliceFrom]
      show (D ++ S) ++ List.replicate d ' ' ++ (l.getD A 'A' :: l.drop (A + 1)) =
        (D ++ (S ++ List.replicate d ' ') ++ [l.getD A 'A']) ++ l.drop (A + 1)
      simp only [List.append_assoc, List.singleton_append, List.cons_append,
        List.nil_append]
    · show ((D ++ (S ++ List.replicate d ' ') ++ [l.getD A 'A']).length : Int) =
        ((A + 1 : Nat) : Int) + (st.cum + ((E : Int) - ((A : Int) + st.cum)))
      simp only [List.length_append, List.length_singleton, List.length_replicate, hSlen]
      push_cast [Nat.cast_sub hmA]
      omega
    · intro ch hch
      rcases List.mem_append.1 hch with hch | hch
      · exact hSnp ch hch
      · have : ch = ' ' := List.eq_of_mem_replicate hch
        subst this
        decide
    · -- E ≤ |D| + |S ++ replicate|
      simp only [List.length_append, List.length_replicate, hSlen]
      have := hDSlen
      rw [List.length_append, hSlen] at this
      omega
    · intro hlt
      exfalso
      simp only [List.length_append, List.length_replicate, hSlen] at hlt
      have := hDSlen
      rw [List.length_append, hSlen] at this
      omega
    · rw [List.filter_append, filter_replicate_space, List.append_nil, hS]
    · intro hfw
      exfalso
      have := hfw.1
      simp at this
  · -- diff < 0, removable spaces exist
    have hdneg : (E : Int) - ((A : Int) + st.cum) < 0 := by omega
    have hposA : 0 < (A : Int) + st.cum := by omega
    have hsb2 : countSpacesBefore st.res ((A : Int) + st.cum) = trailingSpaces (D ++ S) :=
      hcsb hposA
    set tds := trailingSpaces (D ++ S) with htds
    have htds_le : tds ≤ S.length := trailingSpaces_append_le D S htrailD
    set rem := (-((E : Int) - ((A : Int) + st.cum))).toNat ⊓
      countSpacesBefore st.res ((A : Int) + st.cum) with hremdef
    have hrem_tds : rem ≤ tds := by
      rw [hremdef, hsb2]
      omega
    have hrem_diff : (rem : Int) ≤ -((E : Int) - ((A : Int) + st.cum)) := by
      rw [hremdef]
      omega
    have hsliceFrom : pySliceFrom st.res ((A : Int) + st.cum) =
        l.getD A 'A' :: l.drop (A + 1) := by
      unfold pySliceFrom
      rw [if_neg (by omega)]
      have htn : ((A : Int) + st.cum).toNat = (D ++ S).length := by omega
      rw [htn, hres2, List.drop_left]
    have hsliceTo : pySliceTo st.res ((A : Int) + st.cum - (rem : Int)) =
        D ++ S.take (S.length - rem) := by
      unfold pySliceTo
      rw [if_neg (by omega)]
      have htn : ((A : Int) + st.cum - (rem : Int)).toNat = D.length + (S.length - rem) := by
        have := hDSlen
        rw [List.length_append] at this
        omega
      rw [htn, hres2]
      rw [List.take_append_eq_append_take]
      have h1 : (D ++ S).take (D.length + (S.length - rem)) = D ++ S.take (S.length - rem) :=
        List.take_append (S.length - rem)
      have h2 : D.length + (S.length - rem) - (D ++ S).length = 0 := by
        simp only [List.length_append]
        omega
      rw [h1, h2]
      simp
    obtain ⟨Y, hY, hYlast⟩ := trailingSpaces_decomp (D ++ S)
    have hYlen : Y.length = D.length + S.length - tds := by
      have := congrArg List.length hY
      simp only [List.length_append, List.length_replicate] at this
      have h3 : tds ≤ D.length + S.length := by omega
      omega
    have hSdrop : S.drop (S.length - rem) = List.replicate rem ' ' := by
      have hD1 : (D ++ S).drop (D.length + (S.length - rem)) = S.drop (S.length - rem) :=
        List.drop_append (S.length - rem)
      have hD2 : (D ++ S).drop (Y.length + (tds - rem)) =
          (List.replicate tds ' ').drop (tds - rem) := by
        rw [hY]
        exact List.drop_append (tds - rem)
      have harith : Y.length + (tds - rem) = D.length + (S.length - rem) := by omega
      rw [harith] at hD2
      rw [hD1] at hD2
      rw [hD2, List.drop_replicate]
      congr 1
      omega
    refine rowInv_extend l e a ha he j hj _ D (S.take (S.length - rem)) settled
      ?_ ?_ hpipes hpairs ?_ ?_ ?_ hfilter ?_ ?_
    · show pySliceTo st.res ((A : Int) + st.cum - (rem : Int)) ++
        pySliceFrom st.res ((A : Int) + st.cum) = _
      rw [hsliceTo, hsliceFrom]
      rw [List.append_cons]
    · show ((D ++ S.take (S.length - rem) ++ [l.getD A 'A']).length : Int) =
        ((A + 1 : Nat) : Int) + (st.cum - (rem : Int))
      simp only [List.length_append, List.length_singleton, List.length_take]
      have := hDSlen
      rw [List.length_append] at this
      have hmin : min (S.length - rem) S.length = S.length - rem := by omega
      rw [hmin]
      push_cast
      omega
    · intro ch hch
      exact hSnp ch (List.mem_of_mem_take hch)
    · -- E ≤ |D| + |take|
      simp only [List.length_take]
      have := hDSlen
      rw [List.length_append] at this
      omega
    · -- residual shortfall: all removable spaces were removed
      intro hlt
      simp only [List.length_take] at hlt
      have hlen2 := hDSlen
      rw [List.length_append] at hlen2
      have hremsb : rem = tds := by
        -- rem < -diff forces min to pick the space count
        rw [hremdef, hsb2]
        rw [hremdef, hsb2] at hlt
        omega
      have hDW : D ++ S.take (S.length - rem) = Y := by
        have h1 : (D ++ S).take (D.length + (S.length - rem)) =
            D ++ S.take (S.length - rem) := List.take_append (S.length - rem)
        have h2 : (D ++ S).take (Y.length) = Y := by
          rw [hY]
          exact List.take_left Y _
        have harith : Y.length = D.length + (S.length - rem) := by omega
        rw [harith] at h2
        rw [h1] at h2
        exact h2
      rw [hDW]
      have hYlen2 : D.length + (S.take (S.length - rem)).length = Y.length := by
        simp only [List.length_take]
        omega
      rw [hYlen2]
      rcases Nat.eq_zero_or_pos Y.length with hy0 | hy0
      · exact Or.inl hy0
      · right
        have hYne : Y ≠ [] := by
          intro hynil
          rw [hynil] at hy0
          simp at hy0
        have hYlt : Y.length - 1 < Y.length := by omega
        have hgy : Y.getD (Y.length - 1) 'A' = Y[Y.length - 1] := by
          rw [List.getD_eq_getElem?_getD, List.getElem?_eq_getElem hYlt]
          rfl
        have hlast : Y.getLast? = some (Y.getD (Y.length - 1) 'A') := by
          rw [List.getLast?_eq_getElem?, List.getElem?_eq_getElem (by omega), hgy]
        exact hYlast _ hlast
    · -- dropped characters are spaces, so the non-space content is unchanged
      have hSsplit : S = S.take (S.length - rem) ++ List.replicate rem ' ' := by
        conv_lhs => rw [← List.take_append_drop (S.length - rem) S]
        rw [hSdrop]
      rw [hS] at hSsplit ⊢
      conv_rhs => rw [hSsplit]
      rw [List.filter_append, filter_replicate_space, List.append_nil]
    · intro hfw
      exfalso
      have := hfw.1
      simp at this
  · -- diff < 0, no spaces available : warning
    have hdneg : (E : Int) - ((A : Int) + st.cum) < 0 := by omega
    have hposA : 0 < (A : Int) + st.cum := by omega
    have hsb2 : trailingSpaces (D ++ S) = 0 := by
      rw [← hcsb hposA]
      exact hsb
    refine rowInv_extend l e a ha he j hj _ D S settled ?_ ?_ hpipes hpairs hSnp
      ?_ ?_ hfilter (by rw [hS, hm, hA]) ?_
    · show st.res = _
      rw [hres2, List.append_cons]
    · show ((D ++ S ++ [l.getD A 'A']).length : Int) = ((A + 1 : Nat) : Int) + st.cum
      simp only [List.length_append, List.length_singleton, hSlen]
      push_cast [Nat.cast_sub hmA]
      omega
    · have := hDSlen
      rw [List.length_append] at this
      omega
    · intro hlt
      rcases Nat.eq_zero_or_pos (D.length + S.length) with hz | hz
      · exact Or.inl (by omega)
      · right
        have hne : D ++ S ≠ [] := by
          intro hnil
          have hlen0 := congrArg List.length hnil
          simp only [List.length_append, List.length_nil] at hlen0
          omega
        have hlpos : 0 < (D ++ S).length := by
          simp only [List.length_append]
          omega
        have hDSlt : (D ++ S).length - 1 < (D ++ S).length := by omega
        have hgy : (D ++ S).getD ((D ++ S).length - 1) 'A' =
            (D ++ S)[(D ++ S).length - 1] := by
          rw [List.getD_eq_getElem?_getD, List.getElem?_eq_getElem hDSlt]
          rfl
        have hlast : (D ++ S).getLast? =
            some ((D ++ S).getD ((D ++ S).length - 1) 'A') := by
          rw [List.getLast?_eq_getElem?, List.getElem?_eq_getElem (by omega), hgy]
        have hch := getLast?_ne_space_of_trailingSpaces_eq_zero _ hsb2 _ hlast
        have harith : D.length + S.length - 1 = (D ++ S).length - 1 := by
          simp only [List.length_append]
        rw [harith]
        exact hch
    · intro hfw
      exfalso
      have := hfw.2
      simp at this
  · -- impossible: min of two positives is positive
    exfalso
    have hdneg : (E : Int) - ((A : Int) + st.cum) < 0 := by omega
    omega

/-- The `_fix_data_row` loop carries the invariant from any position to the
end, and the exception-aware loop agrees with the total one. -/
theorem rowLoop_inv (l : List Char) (e a : List Nat)
    (ha : a = get_pipe_positions l) (he : e.length = a.length) :
    ∀ (esuf asuf : List Nat) (j : Nat) (st : RowState),
      e.drop j = esuf → a.drop j = asuf → RowInv l e a j st →
      RowInv l e a (j + esuf.length) (rowLoop j (esuf.zip asuf) st) ∧
      rowLoopChecked j (esuf.zip asuf) st = some (rowLoop j (esuf.zip asuf) st) := by
  intro esuf
  induction esuf with
  | nil =>
    intro asuf j st hes has inv
    simp only [List.zip_nil_left, List.length_nil, Nat.add_zero]
    exact ⟨inv, rfl⟩
  | cons ej esuf' ih =>
    intro asuf j st hes has inv
    have hlen : asuf.length = esuf'.length + 1 := by
      have h1 := congrArg List.length hes
      have h2 := congrArg List.length has
      simp only [List.length_drop, List.length_cons] at h1 h2
      omega
    match asuf, hlen, has with
    | aj :: asuf', _, has =>
      have hj : j < a.length := by
        have h2 := congrArg List.length has
        simp only [List.length_drop, List.length_cons] at h2
        omega
      have hej : ej = e.getD j 0 := by
        have hget : e[j]? = some ej := by
          have hgd := List.getElem?_drop e j 0
          rw [hes] at hgd
          simpa using hgd.symm
        rw [List.getD_eq_getElem?_getD, hget]
        rfl
      have haj : aj = a.getD j 0 := by
        have hget : a[j]? = some aj := by
          have hgd := List.getElem?_drop a j 0
          rw [has] at hgd
          simpa using hgd.symm
        rw [List.getD_eq_getElem?_getD, hget]
        rfl
      have hes' : e.drop (j + 1) = esuf' := by
        rw [← List.drop_drop, hes]
        simp [List.drop_one]
      have has' : a.drop (j + 1) = asuf' := by
        rw [← List.drop_drop, has]
        simp [List.drop_one]
      subst hej
      subst haj
      obtain ⟨inv', hchk⟩ := rowInv_step l e a ha he j hj st inv
      obtain ⟨ih1, ih2⟩ := ih asuf' (j + 1) (rowStep j (e.getD j 0) (a.getD j 0) st)
        hes' has' inv'
      constructor
      · have harith : j + (esuf'.length + 1) = (j + 1) + esuf'.length := by omega
        simp only [List.zip_cons_cons, rowLoop, List.length_cons, harith]
        exact ih1
      · simp only [List.zip_cons_cons, rowLoopChecked, rowLoop]
        rw [hchk]
        exact ih2

/-! ### Line classification depends only on the non-whitespace content -/

theorem head?_dropWhile_eq_head?_filter (p : Char → Bool) (l : List Char) :
    (l.dropWhile p).head? = (l.filter (fun c => !(p c))).head? := by
  induction l with
  | nil => rfl
  | cons c rest ih =>
    by_cases h : p c
    · simp [List.dropWhile_cons, List.filter_cons, h, ih]
    · simp [List.dropWhile_cons, List.filter_cons, h]

theorem filter_dropWhile_eq (l : List Char) :
    (l.dropWhile isPySpace).filter (fun c => !(isPySpace c)) =
      l.filter (fun c => !(isPySpace c)) := by
  induction l with
  | nil => rfl
  | cons c rest ih =>
    by_cases h : isPySpace c
    · simp [List.dropWhile_cons, List.filter_cons, h, ih]
    · simp [List.dropWhile_cons, List.filter_cons, h]

theorem head?_pyStrip_eq_filter (l : List Char) :
    (pyStrip l).head? = (l.filter (fun c => !(isPySpace c))).head? := by
  unfold pyStrip
  match hd : l.dropWhile isPySpace with
  | [] =>
    have hfil : l.filter (fun c => !(isPySpace c)) = [] := by
      rw [← filter_dropWhile_eq, hd]
      rfl
    rw [hfil]
    simp
  | c :: rest =>
    have hc : isPySpace c = false := by
      have := List.head?_dropWhile_not isPySpace l
      rw [hd] at this
      exact this
    have hfil : (l.filter (fun c => !(isPySpace c))).head? = some c := by
      rw [← filter_dropWhile_eq, hd]
      simp [List.filter_cons, hc]
    rw [hfil, List.head?_reverse]
    -- last of the right-stripped reverse is c
    have hrev : (c :: rest).reverse = rest.reverse ++ [c] := by simp
    rw [hrev]
    have hne : (rest.reverse ++ [c]).dropWhile isPySpace ≠ [] := by
      intro hnil
      have hall : ∀ x ∈ rest.reverse ++ [c], isPySpace x = true := by
        have := List.takeWhile_append_dropWhile (p := isPySpace) (l := rest.reverse ++ [c])
        rw [hnil, List.append_nil] at this
        intro x hx
        rw [← this] at hx
        exact List.mem_takeWhile_imp hx
      have := hall c (by simp)
      rw [hc] at this
      exact Bool.noConfusion this
    obtain ⟨pre, hpre⟩ := List.dropWhile_suffix (l := rest.reverse ++ [c]) (p := isPySpace)
    have h1 : (pre ++ (rest.reverse ++ [c]).dropWhile isPySpace).getLast? =
        ((rest.reverse ++ [c]).dropWhile isPySpace).getLast? :=
      List.getLast?_append_of_ne_nil pre hne
    rw [hpre] at h1
    rw [← h1, List.getLast?_concat]

theorem getLast?_pyStrip_eq_filter (l : List Char) :
    (pyStrip l).getLast? = (l.filter (fun c => !(isPySpace c))).getLast? := by
  unfold pyStrip
  rw [List.getLast?_reverse, head?_dropWhile_eq_head?_filter, List.filter_reverse,
    List.head?_reverse, filter_dropWhile_eq]

theorem is_table_data_line_congr (l l' : List Char)
    (h : l.filter (fun c => !(isPySpace c)) = l'.filter (fun c => !(isPySpace c))) :
    is_table_data_line l = is_table_data_line l' := by
  unfold is_table_data_line
  rw [head?_pyStrip_eq_filter, getLast?_pyStrip_eq_filter, h,
    ← head?_pyStrip_eq_filter, ← getLast?_pyStrip_eq_filter]

theorem border_false_of_data (l : List Char) (h : is_table_data_line l = true) :
    is_table_border_line l = false := by
  unfold is_table_data_line at h
  cases hh : (pyStrip l).head? with
  | none =>
    simp only [hh] at h
    exact Bool.noConfusion h
  | some c =>
    cases hg : (pyStrip l).getLast? with
    | none =>
      simp only [hh, hg] at h
      exact Bool.noConfusion h
    | some d =>
      simp only [hh, hg, Bool.and_eq_true, decide_eq_true_eq] at h
      have hnotin : decide (c ∈ BOX_CORNERS_TOP ++ BOX_CORNERS_BOTTOM ++ BOX_TEES_LEFT) = false := by
        have hcv : c = '│' ∨ c = '┃' := by simpa [BOX_VERTICAL] using h.1
        rcases hcv with rfl | rfl <;> decide
      unfold is_table_border_line
      simp only [hh, hnotin, Bool.false_and]

/-- Postcondition of the full `_fix_data_row` column loop. -/
theorem rowLoop_final (l : List Char) (e : List Nat)
    (hlen : (get_pipe_positions l).length = e.length) :
    List.Forall₂
      (fun ek sk => ek ≤ sk ∧
        (ek < sk → noSpaceAt (rowLoop 0 (e.zip (get_pipe_positions l)) ⟨l, 0, [], []⟩).res sk))
      e (get_pipe_positions (rowLoop 0 (e.zip (get_pipe_positions l)) ⟨l, 0, [], []⟩).res) ∧
    (rowLoop 0 (e.zip (get_pipe_positions l)) ⟨l, 0, [], []⟩).res.filter
        (fun c => !(isPySpace c)) =
      l.filter (fun c => !(isPySpace c)) ∧
    (((rowLoop 0 (e.zip (get_pipe_positions l)) ⟨l, 0, [], []⟩).fixes = [] ∧
      (rowLoop 0 (e.zip (get_pipe_positions l)) ⟨l, 0, [], []⟩).warns = []) →
      (rowLoop 0 (e.zip (get_pipe_positions l)) ⟨l, 0, [], []⟩).res = l ∧
        get_pipe_positions l = e) ∧
    rowLoopChecked 0 (e.zip (get_pipe_positions l)) ⟨l, 0, [], []⟩ =
      some (rowLoop 0 (e.zip (get_pipe_positions l)) ⟨l, 0, [], []⟩) := by
  set a := get_pipe_positions l with hadef
  have he : e.length = a.length := hlen.symm
  obtain ⟨inv, hchk⟩ := rowLoop_inv l e a hadef he e a 0 ⟨l, 0, [], []⟩
    (by simp) (by simp) (rowInv_init l e a)
  have hn : 0 + e.length = a.length := by omega
  rw [hn] at inv
  set st := rowLoop 0 (e.zip a) ⟨l, 0, [], []⟩ with hst
  obtain ⟨D, settled, hres, hlen2, hpipes, hpairs, hj0, hjlast, hfilter, hempty⟩ := inv
  have htail : charPositionsAux (fun c => decide (c ∈ BOX_VERTICAL))
      (l.drop (endIdx a a.length)) (0 + D.length) = [] := by
    rw [charPositionsAux_eq_nil]
    intro ch hch
    obtain ⟨t, ht, hcht⟩ := List.getElem_of_mem hch
    have hlen3 := ht
    simp only [List.length_drop] at hlen3
    have hbound : endIdx a a.length + t < l.length := by omega
    have hx : l[endIdx a a.length + t] = ch := by
      rw [← hcht, List.getElem_drop]
    have hgd : l.getD (endIdx a a.length + t) 'A' = ch := by
      rw [List.getD_eq_getElem?_getD,
        List.getElem?_eq_getElem (by omega : endIdx a a.length + t < l.length)]
      simpa using hx
    have hnp := after_last_no_pipe l a hadef (endIdx a a.length + t) (by omega)
    rw [hgd] at hnp
    simpa using hnp
  have hpipesres : get_pipe_positions st.res = settled := by
    rw [hres, get_pipe_positions, charPositionsAux_append, htail, List.append_nil]
    exact hpipes
  have hta : e.take a.length = e := by
    rw [← he, List.take_length]
  rw [hta] at hpairs
  refine ⟨?_, ?_, ?_, hchk⟩
  · rw [hpipesres]
    rw [List.forall₂_iff_get] at hpairs ⊢
    obtain ⟨hlen4, hget4⟩ := hpairs
    refine ⟨hlen4, fun i h1i h2i => ?_⟩
    obtain ⟨hle, hns⟩ := hget4 i h1i h2i
    refine ⟨hle, fun hlt => ?_⟩
    have hmem : settled.get ⟨i, h2i⟩ ∈ settled := settled.get_mem i h2i
    have hmem2 : settled.get ⟨i, h2i⟩ ∈ get_pipe_positions D := by
      rw [hpipes]
      exact hmem
    have hskD := get_pipe_positions_lt D _ hmem2
    rw [hres]
    exact noSpaceAt_append D _ _ (Nat.le_of_lt hskD) (hns hlt)
  · rw [hres, List.filter_append, hfilter, ← List.filter_append, List.take_append_drop]
  · intro hfw
    obtain ⟨hc, hD, hs⟩ := hempty hfw
    have hresl : st.res = l := by
      rw [hres, hD, List.take_append_drop]
    refine ⟨hresl, ?_⟩
    rw [hta] at hs
    calc get_pipe_positions l = get_pipe_positions st.res := by rw [hresl]
      _ = settled := hpipesres
      _ = e := hs

/-! ### `_fix_data_row` level facts -/

theorem fix_data_row_filter (l : List Char) (expected : List Nat) :
    (fix_data_row l expected).1.filter (fun c => !(isPySpace c)) =
      l.filter (fun c => !(isPySpace c)) := by
  unfold fix_data_row
  dsimp only
  split_ifs with h1 h2
  · rfl
  · rfl
  · exact (rowLoop_final l expected (not_ne_iff.1 h2)).2.1

theorem fix_data_row_noreport (l : List Char) (expected : List Nat)
    (h : (fix_data_row l expected).2.1 = [] ∧ (fix_data_row l expected).2.2 = []) :
    (fix_data_row l expected).1 = l ∧ get_pipe_positions l = expected := by
  unfold fix_data_row at *
  dsimp only at *
  split_ifs at h with h1 h2
  · rw [if_pos h1]
    exact ⟨rfl, h1⟩
  · exact absurd h.2 (by simp)
  · rw [if_neg h1, if_neg h2]
    exact (rowLoop_final l expected (not_ne_iff.1 h2)).2.2.1 h

theorem fix_data_row_checked_eq (l : List Char) (expected : List Nat) :
    fix_data_row_checked l expected = some (fix_data_row l expected) := by
  unfold fix_data_row_checked fix_data_row
  dsimp only
  split_ifs with h1 h2
  · rfl
  · rfl
  · rw [(rowLoop_final l expected (not_ne_iff.1 h2)).2.2.2]

theorem fix_data_row_pairs (l : List Char) (expected : List Nat)
    (h : (get_pipe_positions l).length = expected.length) :
    List.Forall₂
      (fun ek sk => ek ≤ sk ∧ (ek < sk → noSpaceAt (fix_data_row l expected).1 sk))
      expected (get_pipe_positions (fix_data_row l expected).1) := by
  unfold fix_data_row
  dsimp only
  split_ifs with h1 h2
  · rw [h1]
    exact List.forall₂_same.2 (fun x _ => ⟨Nat.le_refl x, fun hlt => absurd hlt (Nat.lt_irrefl x)⟩)
  · exact absurd h h2
  · exact (rowLoop_final l expected (not_ne_iff.1 h2)).1

theorem countSpacesBefore_eq_zero (s : List Char) (p : Nat) (hp : p ≤ s.length)
    (h : noSpaceAt s p) : countSpacesBefore s (p : Int) = 0 := by
  rcases Nat.eq_zero_or_pos p with rfl | hpos
  · unfold countSpacesBefore
    rw [if_pos (by omega)]
  · unfold countSpacesBefore
    rw [if_neg (by omega)]
    have htn : ((p : Int)).toNat = p := by omega
    rw [htn]
    apply trailingSpaces_eq_zero
    intro ch hch hsp
    rcases h with h0 | h
    · omega
    · have hlen : (s.take p).length = p := by
        simp only [List.length_take]
        omega
      have hlastp : (s.take p).getLast? = (s.take p)[p - 1]? := by
        rw [List.getLast?_eq_getElem?, hlen]
      rw [hlastp, List.getElem?_eq_getElem (by omega)] at hch
      have hb1 : p - 1 < (s.take p).length := by omega
      have hb2 : p - 1 < s.length := by omega
      have hcheq : (s.take p)[p - 1] = ch := Option.some_inj.1 hch
      have hel : (s.take p)[p - 1] = s[p - 1] := List.getElem_take s
      have hgd : s.getD (p - 1) 'A' = s[p - 1] := by
        rw [List.getD_eq_getElem?_getD, List.getElem?_eq_getElem hb2]
        rfl
      apply h
      rw [hgd, ← hel, hcheq, hsp]

/-- A loop step on an already-settled column leaves result, shift and fixes
unchanged (at most a warning is recorded). -/
theorem rowStep_stay (res : List Char) (j ek sk : Nat) (st : RowState)
    (h1 : st.res = res) (h2 : st.cum = 0)
    (hsklen : sk ≤ res.length) (hle : ek ≤ sk) (hns : ek < sk → noSpaceAt res sk) :
    (rowStep j ek sk st).res = st.res ∧ (rowStep j ek sk st).cum = st.cum ∧
    (rowStep j ek sk st).fixes = st.fixes := by
  unfold rowStep
  dsimp only
  split_ifs with d0 dpos drem dsb
  · exact ⟨rfl, rfl, rfl⟩
  · exfalso
    omega
  · exfalso
    have heklt : ek < sk := by omega
    have hcnt : countSpacesBefore st.res ((sk : Int) + st.cum) = 0 := by
      rw [h2, Int.add_zero, h1]
      exact countSpacesBefore_eq_zero res sk hsklen (hns heklt)
    rw [hcnt] at drem
    omega
  · exact ⟨rfl, rfl, rfl⟩
  · exact ⟨rfl, rfl, rfl⟩

theorem rowLoop_no_fixes (res : List Char) :
    ∀ (es ss : List Nat) (j : Nat) (st : RowState),
      st.res = res → st.cum = 0 →
      List.Forall₂
        (fun ek sk => sk ≤ res.length ∧ ek ≤ sk ∧ (ek < sk → noSpaceAt res sk)) es ss →
      (rowLoop j (es.zip ss) st).fixes = st.fixes := by
  intro es
  induction es with
  | nil =>
    intro ss j st h1 h2 hf
    cases hf
    rfl
  | cons ek es' ih =>
    intro ss j st h1 h2 hf
    cases hf with
    | cons hpair hf' =>
      obtain ⟨hsklen, hle, hns⟩ := hpair
      obtain ⟨hr, hc, hfx⟩ := rowStep_stay res j ek _ st h1 h2 hsklen hle hns
      have hind := ih _ (j + 1) (rowStep j ek _ st) (by rw [hr, h1]) (by rw [hc, h2]) hf'
      rw [hfx] at hind
      simp only [List.zip_cons_cons, rowLoop]
      exact hind

/-- Re-running `_fix_data_row` on its own output produces no fixes: the
output's pipes are at or right of their expected offsets with no removable
space, so the second pass can only warn. -/
theorem fix_data_row_refix (l : List Char) (expected : List Nat) :
    (fix_data_row (fix_data_row l expected).1 expected).2.1 = [] := by
  by_cases h1 : get_pipe_positions l = expected
  · have hout : (fix_data_row l expected).1 = l := by
      unfold fix_data_row
      rw [if_pos h1]
    rw [hout]
    unfold fix_data_row
    rw [if_pos h1]
  · by_cases h2 : (get_pipe_positions l).length ≠ expected.length
    · have hout : (fix_data_row l expected).1 = l := by
        unfold fix_data_row
        rw [if_neg h1, if_pos h2]
      rw [hout]
      unfold fix_data_row
      rw [if_neg h1, if_pos h2]
    · have hlen := not_ne_iff.1 h2
      have hpairs := fix_data_row_pairs l expected hlen
      set out := (fix_data_row l expected).1 with hout
      by_cases g1 : get_pipe_positions out = expected
      · unfold fix_data_row
        rw [if_pos g1]
      · by_cases g2 : (get_pipe_positions out).length ≠ expected.length
        · unfold fix_data_row
          rw [if_neg g1, if_pos g2]
        · unfold fix_data_row
          rw [if_neg g1, if_neg g2]
          dsimp only
          apply rowLoop_no_fixes out
          · rfl
          · rfl
          · -- strengthen the pair conditions with the length bound
            rw [List.forall₂_iff_get] at hpairs ⊢
            obtain ⟨hl4, hg4⟩ := hpairs
            refine ⟨hl4, fun i hi1 hi2 => ?_⟩
            obtain ⟨hle, hns⟩ := hg4 i hi1 hi2
            refine ⟨?_, hle, hns⟩
            have hmem := (get_pipe_positions out).get_mem i hi2
            exact Nat.le_of_lt (get_pipe_positions_lt out _ hmem)

theorem fix_data_row_data (l : List Char) (g : List Nat)
    (h : is_table_data_line l = true) :
    is_table_data_line (fix_data_row l g).1 = true ∧
    is_table_border_line (fix_data_row l g).1 = false := by
  have hcongr := is_table_data_line_congr (fix_data_row l g).1 l (fix_data_row_filter l g)
  refine ⟨by rw [hcongr]; exact h, ?_⟩
  exact border_false_of_data _ (by rw [hcongr]; exact h)

/-! ### The per-block pass -/

/-- The rewrite applied to each collected table line: data rows are fixed
against the grid, borders pass through. -/
def rowTransform (grid : List Nat) (ln : List Char) : List Char :=
  if is_table_data_line ln then (fix_data_row ln grid).1 else ln

theorem processRows_fst (idx : Nat) (grid : List Nat) (tbl : List (List Char)) :
    (processRows idx grid tbl).1 = tbl.map (rowTransform grid) := by
  induction tbl generalizing idx with
  | nil => rfl
  | cons ln rest ih =>
    simp only [processRows, List.map_cons]
    by_cases hd : is_table_data_line ln <;>
      simp [hd, rowTransform, ih (idx + 1)]

theorem processRows_length (idx : Nat) (grid : List Nat) (tbl : List (List Char)) :
    (processRows idx grid tbl).1.length = tbl.length := by
  rw [processRows_fst]
  exact List.length_map tbl _

theorem processRows_fix_range (grid : List Nat) :
    ∀ (tbl : List (List Char)) (idx : Nat),
      ∀ ent ∈ (processRows idx grid tbl).2.1,
        idx + 1 ≤ ent.line ∧ ent.line ≤ idx + tbl.length := by
  intro tbl
  induction tbl with
  | nil =>
    intro idx ent hent
    simp [processRows] at hent
  | cons ln rest ih =>
    intro idx ent hent
    simp only [processRows] at hent
    by_cases hd : is_table_data_line ln
    · simp only [hd, if_true] at hent
      by_cases he : (fix_data_row ln grid).2.1.isEmpty
      · simp only [he, if_true] at hent
        have := ih (idx + 1) ent hent
        simp only [List.length_cons]
        omega
      · rw [if_neg he] at hent
        rcases List.mem_cons.1 hent with rfl | hent
        · simp only [List.length_cons]
          omega
        · have := ih (idx + 1) ent hent
          simp only [List.length_cons]
          omega
    · simp only [hd, if_false] at hent
      have := ih (idx + 1) ent hent
      simp only [List.length_cons]
      omega

theorem processRows_warn_range (grid : List Nat) :
    ∀ (tbl : List (List Char)) (idx : Nat),
      ∀ ent ∈ (processRows idx grid tbl).2.2,
        idx + 1 ≤ ent.line ∧ ent.line ≤ idx + tbl.length := by
  intro tbl
  induction tbl with
  | nil =>
    intro idx ent hent
    simp [processRows] at hent
  | cons ln rest ih =>
    intro idx ent hent
    simp only [processRows] at hent
    by_cases hd : is_table_data_line ln
    · simp only [hd, if_true] at hent
      by_cases he : (fix_data_row ln grid).2.2.isEmpty
      · simp only [he, if_true] at hent
        have := ih (idx + 1) ent hent
        simp only [List.length_cons]
        omega
      · rw [if_neg he] at hent
        rcases List.mem_cons.1 hent with rfl | hent
        · simp only [List.length_cons]
          omega
        · have := ih (idx + 1) ent hent
          simp only [List.length_cons]
          omega
    · simp only [hd, if_false] at hent
      have := ih (idx + 1) ent hent
      simp only [List.length_cons]
      omega

theorem processRows_fix_filter (grid : List Nat) :
    ∀ (tbl : List (List Char)) (idx k : Nat), k < tbl.length →
      ((processRows idx grid tbl).2.1).filter (fun ent => decide (ent.line = idx + k + 1)) =
        (if is_table_data_line (tbl.getD k []) then
          (if (fix_data_row (tbl.getD k []) grid).2.1.isEmpty then []
           else [⟨idx + k + 1, (fix_data_row (tbl.getD k []) grid).2.1⟩])
         else []) := by
  intro tbl
  induction tbl with
  | nil =>
    intro idx k hk
    simp at hk
  | cons ln rest ih =>
    intro idx k hk
    have hrec_nomatch0 : ∀ ent ∈ (processRows (idx + 1) grid rest).2.1,
        ¬ (decide (ent.line = idx + 0 + 1) = true) := by
      intro ent hent
      have := processRows_fix_range grid rest (idx + 1) ent hent
      simp only [decide_eq_true_eq]
      omega
    match k with
    | 0 =>
      simp only [processRows, List.getD_cons_zero]
      by_cases hd : is_table_data_line ln
      · rw [if_pos hd, if_pos hd]
        by_cases he : (fix_data_row ln grid).2.1.isEmpty
        · rw [if_pos he, if_pos he]
          exact List.filter_eq_nil_iff.2 (fun ent hent => by
            simpa using hrec_nomatch0 ent hent)
        · rw [if_neg he, if_neg he, List.filter_cons]
          simp only [decide_eq_true_eq]
          rw [if_pos trivial]
          simp only [Nat.add_zero]
          congr 1
          exact List.filter_eq_nil_iff.2 (fun ent hent => by
            simpa using hrec_nomatch0 ent hent)
      · rw [if_neg hd, if_neg hd]
        exact List.filter_eq_nil_iff.2 (fun ent hent => by
          simpa using hrec_nomatch0 ent hent)
    | k + 1 =>
      have hk' : k < rest.length := by
        simp only [List.length_cons] at hk
        omega
      have harith : idx + (k + 1) + 1 = (idx + 1) + k + 1 := by omega
      have hih := ih (idx + 1) k hk'
      simp only [processRows, List.getD_cons_succ, harith]
      by_cases hd : is_table_data_line ln
      · rw [if_pos hd]
        by_cases he : (fix_data_row ln grid).2.1.isEmpty
        · rw [if_pos he]
          exact hih
        · rw [if_neg he, List.filter_cons]
          have hne : ¬ (decide (idx + 1 = (idx + 1) + k + 1) = true) := by
            simp only [decide_eq_true_eq]
            omega
          rw [if_neg hne]
          exact hih
      · rw [if_neg hd]
        exact hih

theorem processRows_warn_filter (grid : List Nat) :
    ∀ (tbl : List (List Char)) (idx k : Nat), k < tbl.length →
      ((processRows idx grid tbl).2.2).filter (fun ent => decide (ent.line = idx + k + 1)) =
        (if is_table_data_line (tbl.getD k []) then
          (if (fix_data_row (tbl.getD k []) grid).2.2.isEmpty then []
           else [⟨idx + k + 1, (fix_data_row (tbl.getD k []) grid).2.2⟩])
         else []) := by
  intro tbl
  induction tbl with
  | nil =>
    intro idx k hk
    simp at hk
  | cons ln rest ih =>
    intro idx k hk
    have hrec_nomatch0 : ∀ ent ∈ (processRows (idx + 1) grid rest).2.2,
        ¬ (decide (ent.line = idx + 0 + 1) = true) := by
      intro ent hent
      have := processRows_warn_range grid rest (idx + 1) ent hent
      simp only [decide_eq_true_eq]
      omega
    match k with
    | 0 =>
      simp only [processRows, List.getD_cons_zero]
      by_cases hd : is_table_data_line ln
      · rw [if_pos hd, if_pos hd]
        by_cases he : (fix_data_row ln grid).2.2.isEmpty
        · rw [if_pos he, if_pos he]
          exact List.filter_eq_nil_iff.2 (fun ent hent => by
            simpa using hrec_nomatch0 ent hent)
        · rw [if_neg he, if_neg he, List.filter_cons]
          simp only [decide_eq_true_eq]
          rw [if_pos trivial]
          simp only [Nat.add_zero]
          congr 1
          exact List.filter_eq_nil_iff.2 (fun ent hent => by
            simpa using hrec_nomatch0 ent hent)
      · rw [if_neg hd, if_neg hd]
        exact List.filter_eq_nil_iff.2 (fun ent hent => by
          simpa using hrec_nomatch0 ent hent)
    | k + 1 =>
      have hk' : k < rest.length := by
        simp only [List.length_cons] at hk
        omega
      have harith : idx + (k + 1) + 1 = (idx + 1) + k + 1 := by omega
      have hih := ih (idx + 1) k hk'
      simp only [processRows, List.getD_cons_succ, harith]
      by_cases hd : is_table_data_line ln
      · rw [if_pos hd]
        by_cases he : (fix_data_row ln grid).2.2.isEmpty
        · rw [if_pos he]
          exact hih
        · rw [if_neg he, List.filter_cons]
          have hne : ¬ (decide (idx + 1 = (idx + 1) + k + 1) = true) := by
            simp only [decide_eq_true_eq]
            omega
          rw [if_neg hne]
          exact hih
      · rw [if_neg hd]
        exact hih

/-! ### The outer scan -/

theorem length_dropWhile_le (p : List Char → Bool) (l : List (List Char)) :
    (l.dropWhile p).length ≤ l.length :=
  (List.dropWhile_suffix p).sublist.length_le

theorem block_split (rest : List (List Char)) :
    rest.takeWhile borderOrData ++ rest.dropWhile borderOrData = rest :=
  List.takeWhile_append_dropWhile borderOrData rest

theorem fixLinesAux_len : ∀ (fuel : Nat) (ls : List (List Char)) (idx : Nat),
    ls.length ≤ fuel → ((fixLinesAux fuel idx ls).1).length = ls.length := by
  intro fuel
  induction fuel with
  | zero =>
    intro ls idx hle
    match ls with
    | [] => rfl
    | ln :: rest => simp at hle
  | succ fuel ih =>
    intro ls idx hle
    match ls with
    | [] => rfl
    | ln :: rest =>
      simp only [fixLinesAux]
      by_cases hb : is_table_border_line ln
      · rw [if_pos hb]
        simp only [List.length_append]
        rw [processRows_length]
        have hsub : (rest.dropWhile borderOrData).length ≤ fuel := by
          have h1 := length_dropWhile_le borderOrData rest
          simp only [List.length_cons] at hle
          omega
        rw [ih _ _ hsub]
        have hsplit := congrArg List.length (block_split rest)
        simp only [List.length_append] at hsplit
        simp only [List.length_cons]
        omega
      · rw [if_neg hb]
        simp only [List.length_cons]
        rw [ih _ _ (by simp only [List.length_cons] at hle; omega)]

theorem fixLinesAux_fix_range : ∀ (fuel : Nat) (ls : List (List Char)) (idx : Nat),
    ls.length ≤ fuel →
    ∀ ent ∈ (fixLinesAux fuel idx ls).2.1,
      idx + 1 ≤ ent.line ∧ ent.line ≤ idx + ls.length := by
  intro fuel
  induction fuel with
  | zero =>
    intro ls idx hle ent hent
    match ls with
    | [] => simp [fixLinesAux] at hent
    | ln :: rest => simp at hle
  | succ fuel ih =>
    intro ls idx hle ent hent
    match ls with
    | [] => simp [fixLinesAux] at hent
    | ln :: rest =>
      simp only [fixLinesAux] at hent
      have hsplit := congrArg List.length (block_split rest)
      simp only [List.length_append] at hsplit
      simp only [List.length_cons] at hle ⊢
      by_cases hb : is_table_border_line ln
      · rw [if_pos hb] at hent
        rcases List.mem_append.1 hent with hent | hent
        · have := processRows_fix_range _ _ idx ent hent
          simp only [List.length_cons] at this
          omega
        · have hsub : (rest.dropWhile borderOrData).length ≤ fuel := by
            have h1 := length_dropWhile_le borderOrData rest
            omega
          have := ih _ _ hsub ent hent
          simp only [List.length_cons] at this
          omega
      · rw [if_neg hb] at hent
        have := ih rest (idx + 1) (by omega) ent hent
        omega

theorem fixLinesAux_warn_range : ∀ (fuel : Nat) (ls : List (List Char)) (idx : Nat),
    ls.length ≤ fuel →
    ∀ ent ∈ (fixLinesAux fuel idx ls).2.2,
      idx + 1 ≤ ent.line ∧ ent.line ≤ idx + ls.length := by
  intro fuel
  induction fuel with
  | zero =>
    intro ls idx hle ent hent
    match ls with
    | [] => simp [fixLinesAux] at hent
    | ln :: rest => simp at hle
  | succ fuel ih =>
    intro ls idx hle ent hent
    match ls with
    | [] => simp [fixLinesAux] at hent
    | ln :: rest =>
      simp only [fixLinesAux] at hent
      have hsplit := congrArg List.length (block_split rest)
      simp only [List.length_append] at hsplit
      simp only [List.length_cons] at hle ⊢
      by_cases hb : is_table_border_line ln
      · rw [if_pos hb] at hent
        rcases List.mem_append.1 hent with hent | hent
        · have := processRows_warn_range _ _ idx ent hent
          simp only [List.length_cons] at this
          omega
        · have hsub : (rest.dropWhile borderOrData).length ≤ fuel := by
            have h1 := length_dropWhile_le borderOrData rest
            omega
          have := ih _ _ hsub ent hent
          simp only [List.length_cons] at this
          omega
      · rw [if_neg hb] at hent
        have := ih rest (idx + 1) (by omega) ent hent
        omega

/-- Per-line characterisation of the scan output: line `k` is rewritten by
`rowTransform` with its block grid when it lies in a table block, and is
untouched otherwise. -/
theorem fixLinesAux_get : ∀ (fuel : Nat) (ls : List (List Char)) (idx k : Nat),
    ls.length ≤ fuel →
    ((fixLinesAux fuel idx ls).1)[k]? =
      (match ls[k]?, lineGridAux fuel ls k with
       | some ln, some g => some (rowTransform g ln)
       | some ln, none => some ln
       | none, _ => none) := by
  intro fuel
  induction fuel with
  | zero =>
    intro ls idx k hle
    match ls with
    | [] => simp [fixLinesAux, lineGridAux]
    | ln :: rest => simp at hle
  | succ fuel ih =>
    intro ls idx k hle
    match ls with
    | [] => simp [fixLinesAux, lineGridAux]
    | ln :: rest =>
      simp only [fixLinesAux, lineGridAux]
      simp only [List.length_cons] at hle
      by_cases hb : is_table_border_line ln
      · rw [if_pos hb, if_pos hb]
        set tw := rest.takeWhile borderOrData with htw
        set dw := rest.dropWhile borderOrData with hdw
        have hsplit : tw ++ dw = rest := block_split rest
        have hsplitlen := congrArg List.length hsplit
        simp only [List.length_append] at hsplitlen
        have hdwlen : dw.length ≤ fuel := by
          have := length_dropWhile_le borderOrData rest
          rw [← hdw] at this
          omega
        have hlen_pr : (processRows idx (blockGrid ln tw) (ln :: tw)).1.length =
            (ln :: tw).length := processRows_length _ _ _
        by_cases hk : k < (ln :: tw).length
        · rw [List.getElem?_append, if_pos (by rw [hlen_pr]; exact hk)]
          rw [processRows_fst, List.getElem?_map]
          have hlsk : (ln :: rest)[k]? = (ln :: tw)[k]? := by
            conv_lhs => rw [← hsplit]
            rw [show ln :: (tw ++ dw) = (ln :: tw) ++ dw from rfl]
            rw [List.getElem?_append, if_pos hk]
          rw [hlsk, if_pos hk]
          cases hkk : (ln :: tw)[k]? with
          | none => rfl
          | some lnk => rfl
        · rw [List.getElem?_append, if_neg (by rw [hlen_pr]; omega)]
          rw [hlen_pr]
          rw [if_neg hk]
          have hlsk : (ln :: rest)[k]? = dw[k - (ln :: tw).length]? := by
            conv_lhs => rw [← hsplit]
            rw [show ln :: (tw ++ dw) = (ln :: tw) ++ dw from rfl]
            rw [List.getElem?_append, if_neg hk]
          rw [hlsk]
          exact ih dw (idx + (ln :: tw).length) (k - (ln :: tw).length) hdwlen
      · rw [if_neg hb, if_neg hb]
        match k with
        | 0 =>
          rw [if_pos rfl]
          simp only [List.getElem?_cons_zero]
        | k + 1 =>
          rw [if_neg (by omega : ¬ (k + 1 = 0))]
          simp only [List.getElem?_cons_succ, Nat.add_sub_cancel]
          exact ih rest (idx + 1) k (by omega)

/-- Per-line characterisation of the fix records of the scan. -/
theorem fixLinesAux_fix_filter : ∀ (fuel : Nat) (ls : List (List Char)) (idx k : Nat),
    ls.length ≤ fuel →
    ((fixLinesAux fuel idx ls).2.1).filter (fun ent => decide (ent.line = idx + k + 1)) =
      (match ls[k]?, lineGridAux fuel ls k with
       | some ln, some g =>
         if is_table_data_line ln then
           (if (fix_data_row ln g).2.1.isEmpty then []
            else [⟨idx + k + 1, (fix_data_row ln g).2.1⟩])
         else []
       | _, _ => []) := by
  intro fuel
  induction fuel with
  | zero =>
    intro ls idx k hle
    match ls with
    | [] => simp [fixLinesAux, lineGridAux]
    | ln :: rest => simp at hle
  | succ fuel ih =>
    intro ls idx k hle
    match ls with
    | [] => simp [fixLinesAux, lineGridAux]
    | ln :: rest =>
      simp only [fixLinesAux, lineGridAux]
      simp only [List.length_cons] at hle
      by_cases hb : is_table_border_line ln
      · rw [if_pos hb, if_pos hb]
        set tw := rest.takeWhile borderOrData with htw
        set dw := rest.dropWhile borderOrData with hdw
        have hsplit : tw ++ dw = rest := block_split rest
        have hsplitlen := congrArg List.length hsplit
        simp only [List.length_append] at hsplitlen
        have hdwlen : dw.length ≤ fuel := by
          have := length_dropWhile_le borderOrData rest
          rw [← hdw] at this
          omega
        rw [List.filter_append]
        by_cases hk : k < (ln :: tw).length
        · have hk2 : k < tw.length + 1 := by simpa using hk
          have hrecnil :
              ((fixLinesAux fuel (idx + (ln :: tw).length) dw).2.1).filter
                (fun ent => decide (ent.line = idx + k + 1)) = [] := by
            refine List.filter_eq_nil_iff.2 (fun ent hent => ?_)
            have := fixLinesAux_fix_range fuel dw (idx + (ln :: tw).length) hdwlen ent hent
            simp only [List.length_cons] at this ⊢
            simp only [decide_eq_true_eq]
            omega
          rw [hrecnil, List.append_nil]
          rw [processRows_fix_filter _ _ idx k hk]
          have hsome : (ln :: rest)[k]? = some ((ln :: tw).getD k []) := by
            have hlsk : (ln :: rest)[k]? = (ln :: tw)[k]? := by
              conv_lhs => rw [← hsplit]
              rw [show ln :: (tw ++ dw) = (ln :: tw) ++ dw from rfl]
              rw [List.getElem?_append, if_pos hk]
            rw [hlsk, List.getElem?_eq_getElem hk, List.getD_eq_getElem?_getD,
              List.getElem?_eq_getElem hk]
            rfl
          rw [hsome, if_pos hk]
        · have hk2 : ¬ k < tw.length + 1 := by simpa using hk
          have hprocnil :
              ((processRows idx (blockGrid ln tw) (ln :: tw)).2.1).filter
                (fun ent => decide (ent.line = idx + k + 1)) = [] := by
            refine List.filter_eq_nil_iff.2 (fun ent hent => ?_)
            have := processRows_fix_range _ _ idx ent hent
            simp only [List.length_cons] at this ⊢
            simp only [decide_eq_true_eq]
            omega
          rw [hprocnil, List.nil_append]
          rw [if_neg hk]
          have hlsk : (ln :: rest)[k]? = dw[k - (ln :: tw).length]? := by
            conv_lhs => rw [← hsplit]
            rw [show ln :: (tw ++ dw) = (ln :: tw) ++ dw from rfl]
            rw [List.getElem?_append, if_neg hk]
          rw [hlsk]
          have harith : idx + k + 1 =
              (idx + (ln :: tw).length) + (k - (ln :: tw).length) + 1 := by
            simp only [List.length_cons] at hk ⊢
            omega
          rw [harith]
          exact ih dw (idx + (ln :: tw).length) (k - (ln :: tw).length) hdwlen
      · rw [if_neg hb, if_neg hb]
        match k with
        | 0 =>
          rw [if_pos rfl]
          simp only [List.getElem?_cons_zero]
          refine List.filter_eq_nil_iff.2 (fun ent hent => ?_)
          have := fixLinesAux_fix_range fuel rest (idx + 1) (by omega) ent hent
          simp only [decide_eq_true_eq]
          omega
        | k + 1 =>
          rw [if_neg (by omega : ¬ (k + 1 = 0))]
          simp only [List.getElem?_cons_succ, Nat.add_sub_cancel]
          have harith : idx + (k + 1) + 1 = (idx + 1) + k + 1 := by omega
          rw [harith]
          exact ih rest (idx + 1) k (by omega)

/-- Per-line characterisation of the warning records of the scan. -/
theorem fixLinesAux_warn_filter : ∀ (fuel : Nat) (ls : List (List Char)) (idx k : Nat),
    ls.length ≤ fuel →
    ((fixLinesAux fuel idx ls).2.2).filter (fun ent => decide (ent.line = idx + k + 1)) =
      (match ls[k]?, lineGridAux fuel ls k with
       | some ln, some g =>
         if is_table_data_line ln then
           (if (fix_data_row ln g).2.2.isEmpty then []
            else [⟨idx + k + 1, (fix_data_row ln g).2.2⟩])
         else []
       | _, _ => []) := by
  intro fuel
  induction fuel with
  | zero =>
    intro ls idx k hle
    match ls with
    | [] => simp [fixLinesAux, lineGridAux]
    | ln :: rest => simp at hle
  | succ fuel ih =>
    intro ls idx k hle
    match ls with
    | [] => simp [fixLinesAux, lineGridAux]
    | ln :: rest =>
      simp only [fixLinesAux, lineGridAux]
      simp only [List.length_cons] at hle
      by_cases hb : is_table_border_line ln
      · rw [if_pos hb, if_pos hb]
        set tw := rest.takeWhile borderOrData with htw
        set dw := rest.dropWhile borderOrData with hdw
        have hsplit : tw ++ dw = rest := block_split rest
        have hsplitlen := congrArg List.length hsplit
        simp only [List.length_append] at hsplitlen
        have hdwlen : dw.length ≤ fuel := by
          have := length_dropWhile_le borderOrData rest
          rw [← hdw] at this
          omega
        rw [List.filter_append]
        by_cases hk : k < (ln :: tw).length
        · have hk2 : k < tw.length + 1 := by simpa using hk
          have hrecnil :
              ((fixLinesAux fuel (idx + (ln :: tw).length) dw).2.2).filter
                (fun ent => decide (ent.line = idx + k + 1)) = [] := by
            refine List.filter_eq_nil_iff.2 (fun ent hent => ?_)
            have := fixLinesAux_warn_range fuel dw (idx + (ln :: tw).length) hdwlen ent hent
            simp only [List.length_cons] at this ⊢
            simp only [decide_eq_true_eq]
            omega
          rw [hrecnil, List.append_nil]
          rw [processRows_warn_filter _ _ idx k hk]
          have hsome : (ln :: rest)[k]? = some ((ln :: tw).getD k []) := by
            have hlsk : (ln :: rest)[k]? = (ln :: tw)[k]? := by
              conv_lhs => rw [← hsplit]
              rw [show ln :: (tw ++ dw) = (ln :: tw) ++ dw from rfl]
              rw [List.getElem?_append, if_pos hk]
            rw [hlsk, List.getElem?_eq_getElem hk, List.getD_eq_getElem?_getD,
              List.getElem?_eq_getElem hk]
            rfl
          rw [hsome, if_pos hk]
        · have hk2 : ¬ k < tw.length + 1 := by simpa using hk
          have hprocnil :
              ((processRows idx (blockGrid ln tw) (ln :: tw)).2.2).filter
                (fun ent => decide (ent.line = idx + k + 1)) = [] := by
            refine List.filter_eq_nil_iff.2 (fun ent hent => ?_)
            have := processRows_warn_range _ _ idx ent hent
            simp only [List.length_cons] at this ⊢
            simp only [decide_eq_true_eq]
            omega
          rw [hprocnil, List.nil_append]
          rw [if_neg hk]
          have hlsk : (ln :: rest)[k]? = dw[k - (ln :: tw).length]? := by
            conv_lhs => rw [← hsplit]
            rw [show ln :: (tw ++ dw) = (ln :: tw) ++ dw from rfl]
            rw [List.getElem?_append, if_neg hk]
          rw [hlsk]
          have harith : idx + k + 1 =
              (idx + (ln :: tw).length) + (k - (ln :: tw).length) + 1 := by
            simp only [List.length_cons] at hk ⊢
            omega
          rw [harith]
          exact ih dw (idx + (ln :: tw).length) (k - (ln :: tw).length) hdwlen
      · rw [if_neg hb, if_neg hb]
        match k with
        | 0 =>
          rw [if_pos rfl]
          simp only [List.getElem?_cons_zero]
          refine List.filter_eq_nil_iff.2 (fun ent hent => ?_)
          have := fixLinesAux_warn_range fuel rest (idx + 1) (by omega) ent hent
          simp only [decide_eq_true_eq]
          omega
        | k + 1 =>
          rw [if_neg (by omega : ¬ (k + 1 = 0))]
          simp only [List.getElem?_cons_succ, Nat.add_sub_cancel]
          have harith : idx + (k + 1) + 1 = (idx + 1) + k + 1 := by omega
          rw [harith]
          exact ih rest (idx + 1) k (by omega)

theorem data_false_of_border (l : List Char) (h : is_table_border_line l = true) :
    is_table_data_line l = false := by
  unfold is_table_border_line at h
  cases hh : (pyStrip l).head? with
  | none =>
    simp only [hh] at h
    exact Bool.noConfusion h
  | some c =>
    simp only [hh, Bool.and_eq_true, decide_eq_true_eq] at h
    have hc : c ∈ BOX_CORNERS_TOP ++ BOX_CORNERS_BOTTOM ++ BOX_TEES_LEFT := h.1
    have hcv : decide (c ∈ BOX_VERTICAL) = false := by
      have h9 : c = '┌' ∨ c = '┐' ∨ c = '╭' ∨ c = '╮' ∨ c = '└' ∨ c = '┘' ∨
          c = '╯' ∨ c = '╰' ∨ c = '├' := by
        simpa [BOX_CORNERS_TOP, BOX_CORNERS_BOTTOM, BOX_TEES_LEFT, or_assoc] using hc
      rcases h9 with rfl | rfl | rfl | rfl | rfl | rfl | rfl | rfl | rfl <;> decide
    unfold is_table_data_line
    rw [hh]
    cases hg : (pyStrip l).getLast? with
    | none => rfl
    | some d =>
      show (decide (c ∈ BOX_VERTICAL) && decide (d ∈ BOX_VERTICAL)) = false
      rw [hcv]
      rfl

/-! ### C10 -/

/-- C10: every line classified as a border line appears byte-identical at its
own position in `fix_table_alignment`'s output — alignment rewrites only data
lines. -/
theorem border_lines_unchanged (lines : List (List Char)) (k : Nat) (ln : List Char)
    (hk : lines[k]? = some ln) (hb : is_table_border_line ln = true) :
    ((fix_table_alignment lines).1)[k]? = some ln := by
  have h := fixLinesAux_get lines.length lines 0 k (Nat.le_refl _)
  rw [hk] at h
  unfold fix_table_alignment
  cases hg : lineGridAux lines.length lines k with
  | none =>
    rw [hg] at h
    simpa using h
  | some g =>
    rw [hg] at h
    have hnd := data_false_of_border ln hb
    rw [h]
    simp [rowTransform, hnd]

/-- C10 (witness). -/
theorem border_lines_unchanged_witness :
    (["┌──┬──┐".data, "│A│B│".data, "└──┴──┘".data][0]? = some "┌──┬──┐".data) ∧
    is_table_border_line "┌──┬──┐".data = true ∧
    ((fix_table_alignment
      ["┌──┬──┐".data, "│A│B│".data, "└──┴──┘".data]).1)[0]? = some "┌──┬──┐".data := by
  refine ⟨rfl, by decide, ?_⟩
  exact border_lines_unchanged ["┌──┬──┐".data, "│A│B│".data, "└──┴──┘".data] 0
    "┌──┬──┐".data rfl (by decide)

/-! ### C5 -/

/-- C5: a data line whose vertical-bar count differs from its block's grid
size is returned byte-identical, receives no fix entry, and receives exactly
one warning entry holding the single column-count-mismatch warning. -/
theorem column_count_mismatch_gating (lines : List (List Char)) (k : Nat)
    (ln : List Char) (g : List Nat)
    (hk : lines[k]? = some ln) (hg : lineGrid lines k = some g)
    (hd : is_table_data_line ln = true)
    (hc : (get_pipe_positions ln).length ≠ g.length) :
    ((fix_table_alignment lines).1)[k]? = some ln ∧
    ((fix_table_alignment lines).2.1).filter (fun ent => decide (ent.line = k + 1)) = [] ∧
    ((fix_table_alignment lines).2.2).filter (fun ent => decide (ent.line = k + 1)) =
      [⟨k + 1, [Warn.mismatch g.length (get_pipe_positions ln).length]⟩] := by
  have hrow : fix_data_row ln g =
      (ln, [], [Warn.mismatch g.length (get_pipe_positions ln).length]) := by
    unfold fix_data_row
    rw [if_neg (fun hEq => hc (by rw [hEq])), if_pos hc]
  have hget := fixLinesAux_get lines.length lines 0 k (Nat.le_refl _)
  have hfix := fixLinesAux_fix_filter lines.length lines 0 k (Nat.le_refl _)
  have hwarn := fixLinesAux_warn_filter lines.length lines 0 k (Nat.le_refl _)
  simp only [Nat.zero_add] at hget hfix hwarn
  rw [hk] at hget hfix hwarn
  unfold lineGrid at hg
  rw [hg] at hget hfix hwarn
  unfold fix_table_alignment
  refine ⟨?_, ?_, ?_⟩
  · rw [hget]
    simp [rowTransform, hd, hrow]
  · rw [hfix]
    simp [hd, hrow]
  · rw [hwarn]
    simp [hd, hrow]

/-- C5 (witness). -/
theorem column_count_mismatch_gating_witness :
    (["┌──┬──┐".data, "│A│".data, "└──┴──┘".data][1]? = some "│A│".data) ∧
    lineGrid ["┌──┬──┐".data, "│A│".data, "└──┴──┘".data] 1 = some [0, 3, 6] ∧
    is_table_data_line "│A│".data = true ∧
    (get_pipe_positions "│A│".data).length ≠ 3 ∧
    ((fix_table_alignment ["┌──┬──┐".data, "│A│".data, "└──┴──┘".data]).1)[1]? =
      some "│A│".data ∧
    ((fix_table_alignment ["┌──┬──┐".data, "│A│".data, "└──┴──┘".data]).2.2).filter
        (fun ent => decide (ent.line = 2)) =
      [⟨2, [Warn.mismatch 3 2]⟩] := by
  have h := column_count_mismatch_gating ["┌──┬──┐".data, "│A│".data, "└──┴──┘".data] 1
    "│A│".data [0, 3, 6] rfl (by decide) (by decide) (by decide)
  exact ⟨rfl, by decide, by decide, by decide, h.1, h.2.2⟩

/-! ### C1 -/

/-- C1 (counterexample): a data line needing a 2-column left shift with only
one removable space gets a *fix* (one space removed), stays misaligned with
respect to the block grid `[0, 2, 5]`, and no warning whatsoever is recorded
for the whole document. -/
theorem misaligned_line_without_warning_counterexample :
    lineGrid ["┌─┬──┐".data, "│AB │C│".data, "└─┴──┘".data] 1 = some [0, 2, 5] ∧
    is_table_data_line "│AB │C│".data = true ∧
    (fix_table_alignment ["┌─┬──┐".data, "│AB │C│".data, "└─┴──┘".data]).2.2 = [] ∧
    ((fix_table_alignment ["┌─┬──┐".data, "│AB │C│".data, "└─┴──┘".data]).1)[1]? =
      some "│AB│C│".data ∧
    get_pipe_positions "│AB│C│".data ≠ [0, 2, 5] := by
  refine ⟨by decide, by decide, by decide, by decide, by decide⟩

/-- C1 (amended): after `fix_table_alignment`, every data line in a detected
table block either has its vertical bars at exactly the offsets of the
block's final grid, or a fix or warning entry is recorded for that line's
line number — a misaligned data line never goes entirely unreported, though
the report may be a fix record rather than a warning. -/
theorem data_line_aligned_or_reported (lines : List (List Char)) (k : Nat)
    (ln : List Char) (g : List Nat)
    (hk : lines[k]? = some ln) (hg : lineGrid lines k = some g)
    (hd : is_table_data_line ln = true) :
    ∃ out, ((fix_table_alignment lines).1)[k]? = some out ∧
      (get_pipe_positions out = g ∨
       ((fix_table_alignment lines).2.1).filter (fun ent => decide (ent.line = k + 1)) ≠ [] ∨
       ((fix_table_alignment lines).2.2).filter (fun ent => decide (ent.line = k + 1)) ≠ []) := by
  have hget := fixLinesAux_get lines.length lines 0 k (Nat.le_refl _)
  have hfix := fixLinesAux_fix_filter lines.length lines 0 k (Nat.le_refl _)
  have hwarn := fixLinesAux_warn_filter lines.length lines 0 k (Nat.le_refl _)
  simp only [Nat.zero_add] at hget hfix hwarn
  rw [hk] at hget hfix hwarn
  unfold lineGrid at hg
  rw [hg] at hget hfix hwarn
  unfold fix_table_alignment
  refine ⟨(fix_data_row ln g).1, ?_, ?_⟩
  · rw [hget]
    simp [rowTransform, hd]
  · by_cases hfx : (fix_data_row ln g).2.1 = []
    · by_cases hwn : (fix_data_row ln g).2.2 = []
      · left
        obtain ⟨hout, hpp⟩ := fix_data_row_noreport ln g ⟨hfx, hwn⟩
        rw [hout, hpp]
      · right; right
        rw [hwarn]
        simp [hd, List.isEmpty_iff, hwn]
    · right; left
      rw [hfix]
      simp [hd, List.isEmpty_iff, hfx]

/-- C1 (witness for the amended theorem). -/
theorem data_line_aligned_or_reported_witness :
    (["┌─┬──┐".data, "│AB │C│".data, "└─┴──┘".data][1]? = some "│AB │C│".data) ∧
    lineGrid ["┌─┬──┐".data, "│AB │C│".data, "└─┴──┘".data] 1 = some [0, 2, 5] ∧
    is_table_data_line "│AB │C│".data = true ∧
    (∃ out, ((fix_table_alignment ["┌─┬──┐".data, "│AB │C│".data, "└─┴──┘".data]).1)[1]? =
        some out ∧
      (get_pipe_positions out = [0, 2, 5] ∨
       ((fix_table_alignment ["┌─┬──┐".data, "│AB │C│".data, "└─┴──┘".data]).2.1).filter
          (fun ent => decide (ent.line = 2)) ≠ [] ∨
       ((fix_table_alignment ["┌─┬──┐".data, "│AB │C│".data, "└─┴──┘".data]).2.2).filter
          (fun ent => decide (ent.line = 2)) ≠ [])) := by
  refine ⟨rfl, by decide, by decide, ?_⟩
  exact data_line_aligned_or_reported ["┌─┬──┐".data, "│AB │C│".data, "└─┴──┘".data] 1
    "│AB │C│".data [0, 2, 5] rfl (by decide) (by decide)

/-! ### C3 -/

/-- The grid update of the inner collection loop:
`if len(new_positions) >= len(col_positions): col_positions = new_positions`. -/
def gridStep (g p : List Nat) : List Nat :=
  if g.length ≤ p.length then p else g

theorem blockGrid_eq_foldl_filter (first : List Char) (tail : List (List Char)) :
    blockGrid first tail =
      ((tail.filter is_table_border_line).map get_column_positions).foldl gridStep
        (get_column_positions first) := by
  unfold blockGrid
  rw [List.foldl_map]
  generalize get_column_positions first = g
  induction tail generalizing g with
  | nil => rfl
  | cons ln rest ih =>
    by_cases hb : is_table_border_line ln
    · simp only [List.foldl_cons, List.filter_cons, hb, if_true]
      exact ih (gridStep g (get_column_positions ln))
    · simp only [List.foldl_cons, List.filter_cons, hb, if_false, Bool.false_eq_true]
      exact ih g

theorem foldl_gridStep_last_argmax :
    ∀ (ps : List (List Nat)) (g0 : List Nat),
      ∃ pre post, g0 :: ps = pre ++ [ps.foldl gridStep g0] ++ post ∧
        (∀ q ∈ pre, q.length ≤ (ps.foldl gridStep g0).length) ∧
        (∀ q ∈ post, q.length < (ps.foldl gridStep g0).length) ∧
        (∀ q ∈ g0 :: ps, q.length ≤ (ps.foldl gridStep g0).length) := by
  intro ps
  induction ps with
  | nil =>
    intro g0
    refine ⟨[], [], by simp, by simp, by simp, ?_⟩
    intro q hq
    simp only [List.foldl_nil]
    rcases List.mem_cons.1 hq with rfl | hq
    · exact Nat.le_refl _
    · simp at hq
  | cons p ps' ih =>
    intro g0
    by_cases hle : g0.length ≤ p.length
    · have hstep : gridStep g0 p = p := by simp [gridStep, hle]
      simp only [List.foldl_cons, hstep]
      obtain ⟨pre', post', hdec, hpre, hpost, hall⟩ := ih p
      refine ⟨g0 :: pre', post', ?_, ?_, hpost, ?_⟩
      · conv_lhs => rw [hdec]
        simp [List.cons_append, List.append_assoc]
      · intro q hq
        rcases List.mem_cons.1 hq with rfl | hq
        · exact Nat.le_trans hle (hall p (List.mem_cons_self p ps'))
        · exact hpre q hq
      · intro q hq
        rcases List.mem_cons.1 hq with rfl | hq
        · exact Nat.le_trans hle (hall p (List.mem_cons_self p ps'))
        · exact hall q hq
    · have hstep : gridStep g0 p = g0 := by simp [gridStep, hle]
      have hplt : p.length < g0.length := by omega
      simp only [List.foldl_cons, hstep]
      obtain ⟨pre', post', hdec, hpre, hpost, hall⟩ := ih g0
      match pre', hdec with
      | [], hdec =>
        have hg0 : g0 = ps'.foldl gridStep g0 := by
          have h2 := congrArg List.head? hdec
          simpa using h2
        have hps' : ps' = post' := by
          have h2 := congrArg List.tail hdec
          simpa using h2
        refine ⟨[], p :: post', ?_, by simp, ?_, ?_⟩
        · simp only [List.nil_append]
          rw [← hg0, ← hps']
          rfl
        · intro q hq
          rcases List.mem_cons.1 hq with rfl | hq
          · rw [← hg0]
            exact hplt
          · exact hpost q hq
        · intro q hq
          rcases List.mem_cons.1 hq with rfl | hq
          · rw [← hg0]
          · rcases List.mem_cons.1 hq with rfl | hq
            · rw [← hg0]
              exact Nat.le_of_lt hplt
            · exact hall q (List.mem_cons_of_mem _ hq)
      | q0 :: pre'', hdec =>
        have hq0 : q0 = g0 := by
          have h2 := congrArg List.head? hdec
          simpa using h2.symm
        have htl : ps' = pre'' ++ [ps'.foldl gridStep g0] ++ post' := by
          have h2 := congrArg List.tail hdec
          simpa [List.append_assoc] using h2
        subst hq0
        refine ⟨q0 :: p :: pre'', post', ?_, ?_, hpost, ?_⟩
        · conv_lhs => rw [htl]
          simp [List.cons_append, List.append_assoc]
        · intro q hq
          rcases List.mem_cons.1 hq with rfl | hq
          · exact hall q (List.mem_cons_self _ _)
          · rcases List.mem_cons.1 hq with rfl | hq
            · exact Nat.le_trans (Nat.le_of_lt hplt) (hall q0 (List.mem_cons_self _ _))
            · exact hpre q (by simp [hq])
        · intro q hq
          rcases List.mem_cons.1 hq with rfl | hq
          · exact hall q (List.mem_cons_self _ _)
          · rcases List.mem_cons.1 hq with rfl | hq
            · exact Nat.le_trans (Nat.le_of_lt hplt) (hall q0 (List.mem_cons_self _ _))
            · exact hall q (List.mem_cons_of_mem _ hq)
/-- C3 counterexample: in the block ┌──┬──┐ / │A  │B│ / └─┬───┘ the two border
lines yield grids [0,3,6] and [0,2,6] of equal size (3) at different positions;
the grid kept for the block is the last-seen [0,2,6], not the first-seen
[0,3,6] claimed, and the data row is aligned to [0,2,6] in the output. -/
theorem block_grid_tie_counterexample :
    get_column_positions "┌──┬──┐".data = [0, 3, 6] ∧
    get_column_positions "└─┬───┘".data = [0, 2, 6] ∧
    blockGrid "┌──┬──┐".data ["│A  │B│".data, "└─┬───┘".data] = [0, 2, 6] ∧
    blockGrid "┌──┬──┐".data ["│A  │B│".data, "└─┬───┘".data] ≠
      get_column_positions "┌──┬──┐".data ∧
    (fix_table_alignment
        ["┌──┬──┐".data, "│A  │B│".data, "└─┬───┘".data]).1 =
      ["┌──┬──┐".data, "│A│B  │".data, "└─┬───┘".data] ∧
    get_pipe_positions "│A│B  │".data = [0, 2, 6] := by
  refine ⟨by decide, by decide, by decide, by decide, ?_, by decide⟩
  decide

/-- C3: within one table block (border line `first` plus continuation `tail`),
the grid that `fixLinesAux` hands to `processRows` for aligning every data row
of the block — `blockGrid first tail`, fixed before any row is touched — is the
grid of a border line whose offset count is maximal among the block's border
lines; on a tie of offset counts the grid of the LAST border line attaining the
maximum is kept (every border grid after the chosen one is strictly shorter),
not the first-seen one. -/
theorem block_grid_last_max (first : List Char) (tail : List (List Char)) :
    ∃ pre post,
      get_column_positions first ::
          (tail.filter is_table_border_line).map get_column_positions
        = pre ++ [blockGrid first tail] ++ post ∧
      (∀ q ∈ pre, q.length ≤ (blockGrid first tail).length) ∧
      (∀ q ∈ post, q.length < (blockGrid first tail).length) := by
  have h := foldl_gridStep_last_argmax
    ((tail.filter is_table_border_line).map get_column_positions)
    (get_column_positions first)
  obtain ⟨pre, post, hdec, hpre, hpost, _⟩ := h
  rw [blockGrid_eq_foldl_filter]
  exact ⟨pre, post, hdec, hpre, hpost⟩

/-! ### C2: idempotence of the alignment pass -/

theorem rowTransform_border (grid : List Nat) (x : List Char)
    (h : is_table_border_line x = true) : rowTransform grid x = x := by
  unfold rowTransform
  rw [if_neg]
  rw [data_false_of_border x h]
  simp

theorem rowTransform_borderOrData (grid : List Nat) (x : List Char)
    (h : borderOrData x = true) : borderOrData (rowTransform grid x) = true := by
  by_cases hd : is_table_data_line x
  · unfold rowTransform
    rw [if_pos hd]
    unfold borderOrData
    rw [(fix_data_row_data x grid hd).1]
    simp
  · unfold rowTransform
    rw [if_neg hd]
    exact h

theorem filter_border_map_rowTransform (grid : List Nat) :
    ∀ tw : List (List Char),
      (tw.map (rowTransform grid)).filter is_table_border_line =
        tw.filter is_table_border_line := by
  intro tw
  induction tw with
  | nil => rfl
  | cons x rest ih =>
    by_cases hd : is_table_data_line x
    · have h1 : is_table_border_line x = false := border_false_of_data x hd
      have h2 : is_table_border_line (rowTransform grid x) = false := by
        unfold rowTransform
        rw [if_pos hd]
        exact (fix_data_row_data x grid hd).2
      simp only [List.map_cons, List.filter_cons, h1, h2]
      simpa using ih
    · have hx : rowTransform grid x = x := by
        unfold rowTransform
        rw [if_neg hd]
      simp only [List.map_cons, List.filter_cons, hx]
      by_cases hb : is_table_border_line x <;> simp [hb, ih]

theorem blockGrid_map_rowTransform (grid : List Nat) (ln : List Char)
    (tw : List (List Char)) :
    blockGrid ln (tw.map (rowTransform grid)) = blockGrid ln tw := by
  rw [blockGrid_eq_foldl_filter, blockGrid_eq_foldl_filter,
    filter_border_map_rowTransform]

theorem processRows_refix (grid : List Nat) :
    ∀ (tbl : List (List Char)) (idx : Nat),
      (processRows idx grid (tbl.map (rowTransform grid))).2.1 = [] := by
  intro tbl
  induction tbl with
  | nil => intro idx; rfl
  | cons x rest ih =>
    intro idx
    simp only [List.map_cons, processRows]
    by_cases hd : is_table_data_line x
    · have hx : rowTransform grid x = (fix_data_row x grid).1 := by
        unfold rowTransform
        rw [if_pos hd]
      have hd2 : is_table_data_line (rowTransform grid x) = true := by
        rw [hx]
        exact (fix_data_row_data x grid hd).1
      rw [hd2]
      rw [if_pos rfl]
      have hempty : (fix_data_row (rowTransform grid x) grid).2.1 = [] := by
        rw [hx]
        exact fix_data_row_refix x grid
      rw [hempty]
      simp only [List.isEmpty_nil, if_true]
      exact ih (idx + 1)
    · have hx : rowTransform grid x = x := by
        unfold rowTransform
        rw [if_neg hd]
      rw [hx]
      have hd' : is_table_data_line x = false := Bool.eq_false_iff.2 hd
      rw [hd']
      rw [if_neg (by simp)]
      exact ih (idx + 1)

theorem fixLinesAux_head_nonborder (fuel idx : Nat) (h : List Char)
    (t : List (List Char)) (hb : is_table_border_line h = false) :
    (fixLinesAux fuel idx (h :: t)).1.head? = some h := by
  cases fuel with
  | zero => rfl
  | succ f =>
    simp only [fixLinesAux]
    rw [if_neg (by simp [hb])]
    rfl

theorem fixLinesAux_out_block_free (fuel idx : Nat) (rst : List (List Char))
    (hh : ∀ x, rst.head? = some x → borderOrData x = false) :
    (fixLinesAux fuel idx rst).1.takeWhile borderOrData = [] ∧
    (fixLinesAux fuel idx rst).1.dropWhile borderOrData =
      (fixLinesAux fuel idx rst).1 := by
  match rst with
  | [] =>
    cases fuel <;> exact ⟨rfl, rfl⟩
  | h :: t =>
    have hp : borderOrData h = false := hh h rfl
    have hb : is_table_border_line h = false := by
      unfold borderOrData at hp
      cases hbb : is_table_border_line h
      · rfl
      · rw [hbb] at hp
        simp at hp
    have hhead := fixLinesAux_head_nonborder fuel idx h t hb
    match hout : (fixLinesAux fuel idx (h :: t)).1 with
    | [] => exact ⟨rfl, rfl⟩
    | y :: ys =>
      rw [hout] at hhead
      have hy : y = h := by simpa using hhead
      subst hy
      exact ⟨by simp [List.takeWhile_cons, hp], by simp [List.dropWhile_cons, hp]⟩

theorem fixLinesAux_refix :
    ∀ (n : Nat) (ls : List (List Char)) (fuel idx fuel' idx' : Nat),
      ls.length ≤ n → ls.length ≤ fuel → ls.length ≤ fuel' →
      (fixLinesAux fuel' idx' (fixLinesAux fuel idx ls).1).2.1 = [] := by
  intro n
  induction n with
  | zero =>
    intro ls fuel idx fuel' idx' hn _ _
    have hnil : ls = [] := List.eq_nil_of_length_eq_zero (Nat.le_zero.1 hn)
    subst hnil
    cases fuel <;> cases fuel' <;> rfl
  | succ n ih =>
    intro ls fuel idx fuel' idx' hn hf hf'
    match ls with
    | [] => cases fuel <;> cases fuel' <;> rfl
    | ln :: rest =>
      match fuel, hf with
      | 0, hf => exact absurd hf (by simp)
      | f + 1, hf =>
        match fuel', hf' with
        | 0, hf' => exact absurd hf' (by simp)
        | f' + 1, hf' =>
          by_cases hb : is_table_border_line ln
          · have hsplit := congrArg List.length (block_split rest)
            simp only [List.length_append] at hsplit
            set tw := rest.takeWhile borderOrData with htw
            set rst := rest.dropWhile borderOrData with hrst
            set grid := blockGrid ln tw with hgrid
            have h1 : (fixLinesAux (f + 1) idx (ln :: rest)).1 =
                (processRows idx grid (ln :: tw)).1 ++
                  (fixLinesAux f (idx + (ln :: tw).length) rst).1 := by
              simp only [fixLinesAux]
              rw [if_pos hb]
            set r1 := (fixLinesAux f (idx + (ln :: tw).length) rst).1 with hr1
            have hpr : (processRows idx grid (ln :: tw)).1 =
                ln :: tw.map (rowTransform grid) := by
              rw [processRows_fst]
              simp only [List.map_cons]
              rw [rowTransform_border grid ln hb]
            have hall : ∀ a ∈ tw.map (rowTransform grid), borderOrData a = true := by
              intro a ha
              obtain ⟨x, hx, rfl⟩ := List.mem_map.1 ha
              exact rowTransform_borderOrData grid x (List.mem_takeWhile_imp hx)
            have hhfree : ∀ x, rst.head? = some x → borderOrData x = false := by
              intro x hx
              have hdw := List.head?_dropWhile_not borderOrData rest
              rw [← hrst, hx] at hdw
              exact hdw
            obtain ⟨hrtk, hrdr⟩ :=
              fixLinesAux_out_block_free f (idx + (ln :: tw).length) rst hhfree
            rw [← hr1] at hrtk hrdr
            have htk : (tw.map (rowTransform grid) ++ r1).takeWhile borderOrData =
                tw.map (rowTransform grid) := by
              rw [List.takeWhile_append_of_pos hall, hrtk, List.append_nil]
            have hdr : (tw.map (rowTransform grid) ++ r1).dropWhile borderOrData = r1 := by
              rw [List.dropWhile_append_of_pos hall, hrdr]
            have h2 : (fixLinesAux (f' + 1) idx'
                  (ln :: (tw.map (rowTransform grid) ++ r1))).2.1 =
                (processRows idx' (blockGrid ln (tw.map (rowTransform grid)))
                    (ln :: tw.map (rowTransform grid))).2.1 ++
                  (fixLinesAux f'
                    (idx' + (ln :: tw.map (rowTransform grid)).length)
                    r1).2.1 := by
              simp only [fixLinesAux]
              rw [if_pos hb, htk, hdr]
            rw [h1, hpr, List.cons_append, h2]
            have hz1 : (processRows idx' (blockGrid ln (tw.map (rowTransform grid)))
                (ln :: tw.map (rowTransform grid))).2.1 = [] := by
              rw [blockGrid_map_rowTransform]
              have hmap : ln :: tw.map (rowTransform grid) =
                  (ln :: tw).map (rowTransform grid) := by
                simp only [List.map_cons]
                rw [rowTransform_border grid ln hb]
              rw [hmap, ← hgrid]
              exact processRows_refix grid (ln :: tw) idx'
            rw [hz1, List.nil_append, hr1]
            have htwlen : tw.length ≤ rest.length := by
              rw [htw]
              exact (List.takeWhile_prefix borderOrData).sublist.length_le
            have hrstlen : rst.length = rest.length - tw.length := by omega
            apply ih rst f (idx + (ln :: tw).length) f'
              (idx' + (ln :: tw.map (rowTransform grid)).length)
            · simp only [List.length_cons] at hn
              omega
            · simp only [List.length_cons] at hf
              omega
            · simp only [List.length_cons] at hf'
              omega
          · have h1 : (fixLinesAux (f + 1) idx (ln :: rest)).1 =
                ln :: (fixLinesAux f (idx + 1) rest).1 := by
              simp only [fixLinesAux]
              rw [if_neg hb]
            have h2 : (fixLinesAux (f' + 1) idx'
                  (ln :: (fixLinesAux f (idx + 1) rest).1)).2.1 =
                (fixLinesAux f' (idx' + 1) (fixLinesAux f (idx + 1) rest).1).2.1 := by
              simp only [fixLinesAux]
              rw [if_neg hb]
            rw [h1, h2]
            exact ih rest f (idx + 1) f' (idx' + 1)
              (by simp only [List.length_cons] at hn; omega)
              (by simp only [List.length_cons] at hf; omega)
              (by simp only [List.length_cons] at hf'; omega)

/-- C2: for an input whose first `fix_table_alignment` pass records no
warnings, running `fix_table_alignment` again on the first pass's fixed lines
produces an empty list of fixes — the fixed text is a fixed point with respect
to fixes. -/
theorem fix_alignment_idempotent (lines : List (List Char))
    (h : (fix_table_alignment lines).2.2 = []) :
    (fix_table_alignment (fix_table_alignment lines).1).2.1 = [] := by
  unfold fix_table_alignment
  have hlen : ((fixLinesAux lines.length 0 lines).1).length = lines.length :=
    fixLinesAux_len lines.length lines 0 (Nat.le_refl _)
  rw [hlen]
  exact fixLinesAux_refix lines.length lines lines.length 0 lines.length 0
    (Nat.le_refl _) (Nat.le_refl _) (Nat.le_refl _)

/-- C2 witness: the block ┌──┬──┐ / │A│B│ / └──┴──┘ is realigned with fixes
and no warnings, and a second pass on the fixed text produces no fixes. -/
theorem fix_alignment_idempotent_witness :
    (fix_table_alignment ["┌──┬──┐".data, "│A│B│".data, "└──┴──┘".data]).2.2 = [] ∧
    (fix_table_alignment
        (fix_table_alignment
          ["┌──┬──┐".data, "│A│B│".data, "└──┴──┘".data]).1).2.1 = [] :=
  ⟨by decide, fix_alignment_idempotent
    ["┌──┬──┐".data, "│A│B│".data, "└──┴──┘".data] (by decide)⟩

/-! ### C8: totality of the two core passes -/

theorem processRowsChecked_eq (grid : List Nat) :
    ∀ (tbl : List (List Char)) (idx : Nat),
      processRowsChecked idx grid tbl = some (processRows idx grid tbl) := by
  intro tbl
  induction tbl with
  | nil => intro idx; rfl
  | cons ln rest ih =>
    intro idx
    simp only [processRowsChecked, processRows, ih (idx + 1), fix_data_row_checked_eq]
    by_cases hd : is_table_data_line ln <;> simp [hd]

theorem fixLinesAuxChecked_eq :
    ∀ (fuel : Nat) (idx : Nat) (ls : List (List Char)),
      fixLinesAuxChecked fuel idx ls = some (fixLinesAux fuel idx ls) := by
  intro fuel
  induction fuel with
  | zero =>
    intro idx ls
    match ls with
    | [] => rfl
    | ln :: rest => rfl
  | succ f ih =>
    intro idx ls
    match ls with
    | [] => rfl
    | ln :: rest =>
      simp only [fixLinesAuxChecked, fixLinesAux, processRowsChecked_eq, ih]
      by_cases hb : is_table_border_line ln <;> simp [hb]

theorem wrap_line_checked_eq (maxW i : Nat) (ln : List Char) :
    wrap_line_checked maxW i ln = some (wrap_line maxW i ln) := by
  unfold wrap_line_checked wrap_line
  dsimp only
  split_ifs with h1 h2 h3 h4 h5
  · rfl
  · rfl
  · rfl
  · rfl
  · rfl
  · split
    · rename_i heq
      rw [heq] at h5
      simp at h5
    · rfl

theorem wrapAuxChecked_eq (maxW : Nat) :
    ∀ (ls : List (List Char)) (i : Nat),
      wrapAuxChecked maxW i ls = some (wrapAux maxW i ls) := by
  intro ls
  induction ls with
  | nil => intro i; rfl
  | cons ln rest ih =>
    intro i
    simp only [wrapAuxChecked, wrapAux, wrap_line_checked_eq, ih (i + 1)]

/-- C8: the two core transformation passes are total: on every input document
(however malformed its tables), the exception-aware models of
`fix_table_alignment` and `wrap_long_lines` — in which every fallible
operation (the `result_line[check_pos]` indexing and the `wrapped[0]`
indexing) returns `none` when out of range, and `none` propagates like an
uncaught exception — return `some` of the pure results: no input makes either
pass raise. -/
theorem core_passes_total (lines : List (List Char)) (maxWidth : Option Nat) :
    fix_table_alignment_checked lines = some (fix_table_alignment lines) ∧
    wrap_long_lines_checked lines maxWidth = some (wrap_long_lines lines maxWidth) := by
  constructor
  · unfold fix_table_alignment_checked fix_table_alignment
    exact fixLinesAuxChecked_eq lines.length 0 lines
  · unfold wrap_long_lines_checked wrap_long_lines
    exact wrapAuxChecked_eq _ lines 0

end TableFixer
